import Mathlib

/-!
Verification development for the load-elimination pass
(src/src/compiler/load-elimination.cc).

Shallow embedding conventions:
* IR nodes are modelled as an inductive tree type; node identity
  (pointer equality in the source) is modelled by structural equality.
  Real effect graphs may be cyclic through loop back edges; the model
  represents the acyclic unfolding that the visited-set traversal of
  ComputeLoopState explores (the loop phi is pre-marked visited, which
  is what bounds the walk in the source as well).
* Arena-allocated immutable abstract values become plain Lean values;
  the source's "return this" no-allocation paths are modelled by
  returning the input value itself, so pointer identity of those paths
  becomes value identity of the model.
* UNREACHABLE() is modelled as Option.none (a crash); DCHECKs are
  modelled as release-mode no-ops.
* Machine integers only appear as small indices and are modelled by Nat/Fin.
-/

/-- Opcodes the pass inspects; every other opcode is kOther with a tag so
that distinct unrelated operators can be represented. -/
inductive Opcode where
  | kAllocate
  | kHeapConstant
  | kParameter
  | kFinishRegion
  | kCheckMaps
  | kEnsureWritableFastElements
  | kMaybeGrowFastElements
  | kTransitionElementsKind
  | kLoadField
  | kStoreField
  | kLoadElement
  | kStoreElement
  | kStoreTypedElement
  | kStoreBuffer
  | kEffectPhi
  | kLoop
  | kMerge
  | kStart
  | kDead
  | kOther (tag : Nat)
deriving DecidableEq

/-- The closed machine-representation enumeration of the source. -/
inductive MachineRepresentation where
  | kNone
  | kBit
  | kWord8
  | kWord16
  | kWord32
  | kWord64
  | kFloat32
  | kFloat64
  | kSimd128
  | kTaggedSigned
  | kTaggedPointer
  | kTagged
deriving DecidableEq

/-- FieldAccess: the parts of the access descriptor the pass reads. -/
structure FieldAccess where
  baseIsTagged : Bool
  offset : Nat
  machineRep : MachineRepresentation
deriving DecidableEq

/-- ElementAccess: the parts of the access descriptor the pass reads. -/
structure ElementAccess where
  machineRep : MachineRepresentation
deriving DecidableEq

/-- GrowFastElementsFlags bitset. -/
structure GrowFastElementsFlags where
  doubleElements : Bool
  arrayObject : Bool
deriving DecidableEq

/-- ElementsTransition enum. -/
inductive ElementsTransition where
  | kFastTransition
  | kSlowTransition
deriving DecidableEq

/-- Operator descriptor: the properties and parameters the pass reads off
node->op().  The parameter fields (fieldAccess, elementAccess, growFlags,
transition) are meaningful only for the opcodes whose operators carry them,
exactly as in the source where the corresponding OpParameter is only read
under the matching opcode. -/
structure OpInfo where
  noWrite : Bool
  effectInputCount : Nat
  effectOutputCount : Nat
  valueInputCount : Nat
  fieldAccess : FieldAccess
  elementAccess : ElementAccess
  growFlags : GrowFastElementsFlags
  transition : ElementsTransition
deriving DecidableEq

/-- A static type: the set of runtime values a node may hold, as a finite
list.  Type::Maybe is non-empty intersection, Type::Is is inclusion. -/
abbrev NType := List Nat

/-- An IR node: id, opcode, static type, the input list partitioned into
value, effect and control inputs (the source's single input array is the
concatenation in this order), and the operator descriptor. -/
inductive Node where
  | mk (id : Nat) (opcode : Opcode) (ty : NType)
       (valueInputs : List Node) (effectInputs : List Node)
       (controlInputs : List Node) (op : OpInfo)

mutual

def Node.deq : (a b : Node) → Decidable (a = b)
  | .mk i1 o1 t1 v1 e1 c1 p1, .mk i2 o2 t2 v2 e2 c2 p2 =>
    match decEq i1 i2 with
    | isFalse h => isFalse (fun he => by injection he; contradiction)
    | isTrue h1 =>
      match decEq o1 o2 with
      | isFalse h => isFalse (fun he => by injection he; contradiction)
      | isTrue h2 =>
        match decEq t1 t2 with
        | isFalse h => isFalse (fun he => by injection he; contradiction)
        | isTrue h3 =>
          match Node.deqList v1 v2 with
          | isFalse h => isFalse (fun he => by injection he; contradiction)
          | isTrue h4 =>
            match Node.deqList e1 e2 with
            | isFalse h => isFalse (fun he => by injection he; contradiction)
            | isTrue h5 =>
              match Node.deqList c1 c2 with
              | isFalse h => isFalse (fun he => by injection he; contradiction)
              | isTrue h6 =>
                match decEq p1 p2 with
                | isFalse h => isFalse (fun he => by injection he; contradiction)
                | isTrue h7 => isTrue (by rw [h1, h2, h3, h4, h5, h6, h7])

def Node.deqList : (a b : List Node) → Decidable (a = b)
  | [], [] => isTrue rfl
  | [], _ :: _ => isFalse (fun he => by injection he)
  | _ :: _, [] => isFalse (fun he => by injection he)
  | a :: as, b :: bs =>
    match Node.deq a b with
    | isFalse h => isFalse (fun he => by injection he; contradiction)
    | isTrue h1 =>
      match Node.deqList as bs with
      | isFalse h => isFalse (fun he => by injection he; contradiction)
      | isTrue h2 => isTrue (by rw [h1, h2])

end

instance : DecidableEq Node := Node.deq

def Node.id : Node → Nat
  | .mk i _ _ _ _ _ _ => i

def Node.opcode : Node → Opcode
  | .mk _ oc _ _ _ _ _ => oc

def Node.ty : Node → NType
  | .mk _ _ t _ _ _ _ => t

def Node.valueInputs : Node → List Node
  | .mk _ _ _ v _ _ _ => v

def Node.effectInputs : Node → List Node
  | .mk _ _ _ _ e _ _ => e

def Node.controlInputs : Node → List Node
  | .mk _ _ _ _ _ c _ => c

def Node.op : Node → OpInfo
  | .mk _ _ _ _ _ _ o => o

/-- The full input list in the source's order. -/
def Node.inputs (n : Node) : List Node :=
  n.valueInputs ++ n.effectInputs ++ n.controlInputs

/-- node->InputCount(). -/
def Node.inputCount (n : Node) : Nat := n.inputs.length

/-- node->InputAt(i); none models the out-of-bounds assertion. -/
def Node.inputAt (n : Node) (i : Nat) : Option Node := n.inputs.get? i

/-- node->InputAt(0). -/
def Node.input0 (n : Node) : Option Node := n.inputs.head?

/-- NodeProperties::GetValueInput(node, i). -/
def Node.getValueInput (n : Node) (i : Nat) : Option Node := n.valueInputs.get? i

/-- NodeProperties::GetEffectInput(node, i). -/
def Node.getEffectInput (n : Node) (i : Nat) : Option Node := n.effectInputs.get? i

/-- NodeProperties::GetControlInput(node). -/
def Node.getControlInput (n : Node) : Option Node := n.controlInputs.get? 0

/-- The effect inputs the traversal of ComputeLoopState enqueues:
GetEffectInput(node, i) for i < op()->EffectInputCount().  For well-formed
nodes the list length equals the operator count and this is just
effectInputs. -/
def Node.pushedEffectInputs (n : Node) : List Node :=
  n.effectInputs.take n.op.effectInputCount

mutual

/-- Computable structural size of a node (1 plus the sizes of all inputs);
used as the termination measure of the graph walks. -/
def Node.sz : Node → Nat
  | .mk _ _ _ v e c _ => 1 + Node.szList v + Node.szList e + Node.szList c

def Node.szList : List Node → Nat
  | [] => 0
  | a :: l => Node.sz a + Node.szList l

end

theorem Node.sz_pos (n : Node) : 0 < n.sz := by
  cases n with
  | mk i oc t v e c o => simp only [Node.sz]; omega

theorem Node.szList_le_of_mem {l : List Node} {a : Node} (h : a ∈ l) :
    a.sz ≤ Node.szList l := by
  induction l with
  | nil => cases h
  | cons x xs ih =>
    simp only [Node.szList]
    rcases List.mem_cons.mp h with h | h
    · subst h; omega
    · have := ih h; omega

theorem Node.szList_append (l1 l2 : List Node) :
    Node.szList (l1 ++ l2) = Node.szList l1 + Node.szList l2 := by
  induction l1 with
  | nil => simp [Node.szList]
  | cons x xs ih =>
    show Node.szList (x :: (xs ++ l2)) = _
    simp only [Node.szList, ih]
    omega

theorem Node.szList_take_le (l : List Node) (k : Nat) :
    Node.szList (l.take k) ≤ Node.szList l := by
  induction l generalizing k with
  | nil => simp [List.take_nil]
  | cons x xs ih =>
    cases k with
    | zero => simp only [List.take_zero, Node.szList]; have := Node.sz_pos x; omega
    | succ k =>
      simp only [List.take_succ_cons, Node.szList]
      have := ih k; omega

theorem Node.sz_mem_inputs {n a : Node} (h : a ∈ n.inputs) : a.sz < n.sz := by
  cases n with
  | mk i oc t v e c o =>
    simp only [Node.inputs, Node.valueInputs, Node.effectInputs, Node.controlInputs,
      List.mem_append] at h
    simp only [Node.sz]
    rcases h with (h | h) | h
    · have := Node.szList_le_of_mem h; omega
    · have := Node.szList_le_of_mem h; omega
    · have := Node.szList_le_of_mem h; omega

theorem Node.sz_mem_effectInputs {n a : Node} (h : a ∈ n.effectInputs) :
    a.sz < n.sz := by
  apply Node.sz_mem_inputs
  simp [Node.inputs, h]

theorem Node.szList_pushed_lt (n : Node) : Node.szList n.pushedEffectInputs < n.sz := by
  cases n with
  | mk i oc t v e c o =>
    have h1 : Node.szList ((Node.mk i oc t v e c o).pushedEffectInputs) ≤ Node.szList e := by
      simpa [Node.pushedEffectInputs, Node.effectInputs] using
        Node.szList_take_le e (Node.op (Node.mk i oc t v e c o)).effectInputCount
    simp only [Node.sz]
    omega

theorem Node.sz_input0 {n a : Node} (h : n.input0 = some a) : a.sz < n.sz := by
  apply Node.sz_mem_inputs
  cases hl : n.inputs with
  | nil => simp [Node.input0, hl] at h
  | cons x xs =>
    simp only [Node.input0, hl, List.head?_cons, Option.some.injEq] at h
    simp [hl, h]

/-- The Aliasing enum of the source. -/
inductive Aliasing where
  | kNoAlias
  | kMayAlias
  | kMustAlias
deriving DecidableEq

/-- Type::Maybe — the two value sets intersect. -/
def typeMaybe (s t : NType) : Bool := s.any (fun x => t.contains x)

/-- Type::Is — inclusion of value sets. -/
def typeIs (s t : NType) : Bool := s.all (fun x => t.contains x)

theorem typeMaybe_true_iff (s t : NType) :
    typeMaybe s t = true ↔ ∃ x ∈ s, x ∈ t := by
  simp [typeMaybe, List.any_eq_true]

theorem typeMaybe_comm (s t : NType) : typeMaybe s t = typeMaybe t s := by
  by_cases h : typeMaybe s t = true
  · obtain ⟨x, hs, ht⟩ := (typeMaybe_true_iff s t).mp h
    rw [h, (typeMaybe_true_iff t s).mpr ⟨x, ht, hs⟩]
  · have h2 : ¬ typeMaybe t s = true := fun hh => by
      obtain ⟨x, ht, hs⟩ := (typeMaybe_true_iff t s).mp hh
      exact h ((typeMaybe_true_iff s t).mpr ⟨x, hs, ht⟩)
    simp only [Bool.not_eq_true] at h h2
    rw [h, h2]

/-- QueryAlias, with a fuel parameter bounding the FinishRegion-stripping
recursion (the recursion of the source is structural on the stripped
operand; the fuel chosen in QueryAlias below always suffices, see
queryAliasF_fuel_irrel).  The body mirrors the source: identity, type
disjointness, then the two switch blocks guarded by the other operand
being an Allocate; the second block is reached when the first one is not
entered or falls through its default case. -/
def queryAliasF : Nat → Node → Node → Aliasing
  | 0, _, _ => .kMayAlias
  | fuel + 1, a, b =>
    if a = b then .kMustAlias
    else if typeMaybe a.ty b.ty = false then .kNoAlias
    else
      let second : Aliasing :=
        if a.opcode = .kAllocate then
          if b.opcode = .kHeapConstant ∨ b.opcode = .kParameter then .kNoAlias
          else if b.opcode = .kFinishRegion then
            match b.input0 with
            | some b0 => queryAliasF fuel a b0
            | none => .kMayAlias
          else .kMayAlias
        else .kMayAlias
      if b.opcode = .kAllocate then
        if a.opcode = .kAllocate ∨ a.opcode = .kHeapConstant ∨ a.opcode = .kParameter then
          .kNoAlias
        else if a.opcode = .kFinishRegion then
          match a.input0 with
          | some a0 => queryAliasF fuel a0 b
          | none => .kMayAlias
        else second
      else second

/-- Each recursion step strips one operand to a strictly smaller node, so
any fuel above the combined size gives the same (fuel-free) answer. -/
theorem queryAliasF_fuel_irrel :
    ∀ f g a b, a.sz + b.sz < f → a.sz + b.sz < g →
      queryAliasF f a b = queryAliasF g a b := by
  intro f
  induction f with
  | zero => intro g a b hf; omega
  | succ f ih =>
    intro g a b hf hg
    cases g with
    | zero => omega
    | succ g =>
      simp only [queryAliasF]
      by_cases hab : a = b
      · simp [hab]
      · simp only [if_neg hab]
        by_cases hty : typeMaybe a.ty b.ty = false
        · simp [hty]
        · simp only [if_neg hty]
          by_cases hbA : b.opcode = .kAllocate
          · simp only [if_pos hbA]
            by_cases haP : a.opcode = .kAllocate ∨ a.opcode = .kHeapConstant ∨
                a.opcode = .kParameter
            · simp [haP]
            · simp only [if_neg haP]
              by_cases haF : a.opcode = .kFinishRegion
              · simp only [if_pos haF]
                cases h0 : a.input0 with
                | none => rfl
                | some a0 =>
                  have hsz := Node.sz_input0 h0
                  exact ih g a0 b (by omega) (by omega)
              · have haA : ¬ a.opcode = .kAllocate := fun h => haP (Or.inl h)
                simp only [if_neg haF, if_neg haA]
          · simp only [if_neg hbA]
            by_cases haA : a.opcode = .kAllocate
            · simp only [if_pos haA]
              by_cases hbP : b.opcode = .kHeapConstant ∨ b.opcode = .kParameter
              · simp [hbP]
              · simp only [if_neg hbP]
                by_cases hbF : b.opcode = .kFinishRegion
                · simp only [if_pos hbF]
                  cases h0 : b.input0 with
                  | none => rfl
                  | some b0 =>
                    have hsz := Node.sz_input0 h0
                    exact ih g a b0 (by omega) (by omega)
                · simp only [if_neg hbF]
            · simp only [if_neg haA]

/-- QueryAlias of the source: the fuel is one more than the combined node
sizes, which the stripping recursion can never exhaust. -/
def QueryAlias (a b : Node) : Aliasing :=
  queryAliasF (a.sz + b.sz + 1) a b

def MayAlias (a b : Node) : Bool := QueryAlias a b != .kNoAlias

def MustAlias (a b : Node) : Bool := QueryAlias a b == .kMustAlias

theorem QueryAlias_self (a : Node) : QueryAlias a a = .kMustAlias := by
  simp [QueryAlias, queryAliasF]

theorem MustAlias_self (a : Node) : MustAlias a a = true := by
  simp [MustAlias, QueryAlias_self]

theorem mayAlias_of_mustAlias {a b : Node} (h : MustAlias a b = true) :
    MayAlias a b = true := by
  simp only [MustAlias, beq_iff_eq] at h
  simp [MayAlias, h]

theorem mustAlias_false_of_mayAlias_false {a b : Node} (h : MayAlias a b = false) :
    MustAlias a b = false := by
  by_cases hm : MustAlias a b = true
  · rw [mayAlias_of_mustAlias hm] at h; exact absurd h (by simp)
  · simpa using hm

theorem queryAliasF_symm :
    ∀ f a b, a.sz + b.sz < f → queryAliasF f a b = queryAliasF f b a := by
  intro f
  induction f with
  | zero => intro a b h; omega
  | succ f ih =>
    intro a b hs
    simp only [queryAliasF]
    by_cases hab : a = b
    · simp [hab]
    · have hba : ¬ b = a := fun h2 => hab h2.symm
      simp only [if_neg hab, if_neg hba]
      rw [typeMaybe_comm b.ty a.ty]
      by_cases hty : typeMaybe a.ty b.ty = false
      · simp [hty]
      · simp only [if_neg hty]
        by_cases haA : a.opcode = .kAllocate
        · by_cases hbA : b.opcode = .kAllocate
          · simp [haA, hbA]
          · simp only [haA, hbA, if_true, if_false]
            by_cases hbHP : b.opcode = .kHeapConstant ∨ b.opcode = .kParameter
            · simp [haA, hbA, hbHP]
            · simp only [haA, hbA, hbHP, if_false, if_true]
              by_cases hbF : b.opcode = .kFinishRegion
              · simp only [haA, hbA, hbHP, hbF, if_true, if_false,
                  false_or, eq_self_iff_true]
                cases h0 : b.input0 with
                | none => simp [haA, hbA, hbHP, hbF, h0]
                | some b0 =>
                  have hsz := Node.sz_input0 h0
                  simp only [haA, hbA, hbHP, hbF, h0, if_true, if_false, false_or,
                    true_or, eq_self_iff_true]
                  exact ih a b0 (by omega)
              · simp [haA, hbA, hbHP, hbF]
        · by_cases hbA : b.opcode = .kAllocate
          · simp only [haA, hbA, if_true, if_false]
            by_cases haHP : a.opcode = .kHeapConstant ∨ a.opcode = .kParameter
            · simp [haA, hbA, haHP]
            · simp only [haA, hbA, haHP, if_false, if_true]
              by_cases haF : a.opcode = .kFinishRegion
              · cases h0 : a.input0 with
                | none => simp [haA, hbA, haHP, haF, h0]
                | some a0 =>
                  have hsz := Node.sz_input0 h0
                  simp only [haA, hbA, haHP, haF, h0, if_true, if_false, false_or,
                    true_or, eq_self_iff_true]
                  exact ih a0 b (by omega)
              · simp [haA, hbA, haHP, haF]
          · simp [haA, hbA]

theorem QueryAlias_symm (a b : Node) : QueryAlias a b = QueryAlias b a := by
  unfold QueryAlias
  rw [queryAliasF_symm (a.sz + b.sz + 1) a b (by omega)]
  exact queryAliasF_fuel_irrel (a.sz + b.sz + 1) (b.sz + a.sz + 1) b a (by omega) (by omega)

theorem MustAlias_symm (a b : Node) : MustAlias a b = MustAlias b a := by
  simp [MustAlias, QueryAlias_symm a b]

theorem MayAlias_symm (a b : Node) : MayAlias a b = MayAlias b a := by
  simp [MayAlias, QueryAlias_symm a b]

/-- Strip any chain of FinishRegion wrappers down to the wrapped node. -/
def stripFinishRegion (n : Node) : Node :=
  if n.opcode = .kFinishRegion then
    match h : n.input0 with
    | some m => stripFinishRegion m
    | none => n
  else n
termination_by n.sz
decreasing_by exact Node.sz_input0 (by assumption)

theorem stripFinishRegion_eq_of_ne {n : Node} (h : ¬ n.opcode = .kFinishRegion) :
    stripFinishRegion n = n := by
  rw [stripFinishRegion, if_neg h]

theorem stripFinishRegion_step {n m : Node} (hF : n.opcode = .kFinishRegion)
    (h0 : n.input0 = some m) : stripFinishRegion n = stripFinishRegion m := by
  rw [stripFinishRegion, if_pos hF]
  split
  · rename_i m2 h2
    rw [h0] at h2
    cases h2
    rfl
  · rename_i h2
    rw [h0] at h2
    cases h2

/-- A must answer can only arise from the identity test, possibly after
stripping FinishRegion wrappers (which the code does when the other
operand is an Allocate). -/
theorem queryAliasF_must_strip :
    ∀ f a b, a.sz + b.sz < f → queryAliasF f a b = .kMustAlias →
      stripFinishRegion a = stripFinishRegion b := by
  intro f
  induction f with
  | zero => intro a b h; omega
  | succ f ih =>
    intro a b hs hm
    simp only [queryAliasF] at hm
    by_cases hab : a = b
    · rw [hab]
    · rw [if_neg hab] at hm
      by_cases hty : typeMaybe a.ty b.ty = false
      · rw [if_pos hty] at hm; cases hm
      · rw [if_neg hty] at hm
        by_cases hbA : b.opcode = .kAllocate
        · rw [if_pos hbA] at hm
          by_cases haP : a.opcode = .kAllocate ∨ a.opcode = .kHeapConstant ∨
              a.opcode = .kParameter
          · rw [if_pos haP] at hm; cases hm
          · rw [if_neg haP] at hm
            by_cases haF : a.opcode = .kFinishRegion
            · rw [if_pos haF] at hm
              cases h0 : a.input0 with
              | none => rw [h0] at hm; cases hm
              | some a0 =>
                rw [h0] at hm
                have hsz := Node.sz_input0 h0
                rw [stripFinishRegion_step haF h0]
                exact ih a0 b (by omega) hm
            · rw [if_neg haF] at hm
              have haA : ¬ a.opcode = .kAllocate := fun h => haP (Or.inl h)
              rw [if_neg haA] at hm; cases hm
        · rw [if_neg hbA] at hm
          by_cases haA : a.opcode = .kAllocate
          · rw [if_pos haA] at hm
            by_cases hbP : b.opcode = .kHeapConstant ∨ b.opcode = .kParameter
            · rw [if_pos hbP] at hm; cases hm
            · rw [if_neg hbP] at hm
              by_cases hbF : b.opcode = .kFinishRegion
              · rw [if_pos hbF] at hm
                cases h0 : b.input0 with
                | none => rw [h0] at hm; cases hm
                | some b0 =>
                  rw [h0] at hm
                  have hsz := Node.sz_input0 h0
                  rw [stripFinishRegion_step hbF h0]
                  exact ih a b0 (by omega) hm
              · rw [if_neg hbF] at hm; cases hm
          · rw [if_neg haA] at hm; cases hm

theorem MustAlias_strip {a b : Node} (h : MustAlias a b = true) :
    stripFinishRegion a = stripFinishRegion b := by
  simp only [MustAlias, beq_iff_eq] at h
  exact queryAliasF_must_strip (a.sz + b.sz + 1) a b (by omega) h

/-- kMaxTrackedElements (ring capacity; header constant, spec default 8). -/
abbrev kMaxTrackedElements : Nat := 8

/-- kMaxTrackedFields (header constant, spec default 32). -/
abbrev kMaxTrackedFields : Nat := 32

/-- kPointerSize of the target (64-bit). -/
abbrev kPointerSize : Nat := 8

/-- MachineType::PointerRepresentation() for the 64-bit target. -/
def pointerRepresentation : MachineRepresentation := .kWord64

/-- A non-empty entry of the elements ring (null-object entries are
modelled as none in the ring list). -/
structure Element where
  object : Node
  index : Node
  value : Node
deriving DecidableEq

/-- The bounded ring of element facts: a fixed-capacity array of optional
entries plus the next-insert cursor. -/
structure AbstractElements where
  elements_ : List (Option Element)
  next_index_ : Nat
deriving DecidableEq

/-- Modelled from the spec: the AbstractElements(Zone*) constructor lives
in the header, not in src/.  Spec section 3: empty entries are null
objects, the cursor starts at 0. -/
def AbstractElements.empty : AbstractElements :=
  ⟨List.replicate kMaxTrackedElements none, 0⟩

/-- Modelled from the spec: the AbstractElements(object, index, value)
constructor lives in the header, not in src/; it writes the one fact at
the cursor and advances it. -/
def AbstractElements.single (object index value : Node) : AbstractElements :=
  ⟨(List.replicate kMaxTrackedElements (none : Option Element)).set 0
      (some ⟨object, index, value⟩), 1⟩

/-- Sequentially write the given facts into a fresh ring starting at
cursor 0, as the copy loops of Kill and Merge do; the final cursor is the
count modulo the capacity.  (Writing more than the capacity is undefined
behaviour in the source; List.set then drops the overflow.) -/
def AbstractElements.ofFacts (facts : List Element) : AbstractElements :=
  let z := facts.foldl (fun p el => (p.1.set p.2 (some el), p.2 + 1))
    (List.replicate kMaxTrackedElements (none : Option Element), 0)
  ⟨z.1, z.2 % kMaxTrackedElements⟩

/-- AbstractElements::Lookup. -/
def AbstractElements.Lookup (E : AbstractElements) (object index : Node) : Option Node :=
  E.elements_.findSome? fun e =>
    match e with
    | none => none
    | some el =>
      if MustAlias object el.object && MustAlias index el.index then some el.value
      else none

/-- AbstractElements::Kill.  The first scan looks for an entry whose
object may-aliases; only then is a compacted copy built, keeping entries
that differ on at least one coordinate. -/
def AbstractElements.Kill (E : AbstractElements) (object index : Node) : AbstractElements :=
  if E.elements_.any (fun e =>
      match e with
      | none => false
      | some el => MayAlias object el.object) then
    AbstractElements.ofFacts (E.elements_.filterMap fun e =>
      match e with
      | none => none
      | some el =>
        if !MayAlias object el.object || !MayAlias index el.index then some el
        else none)
  else E

/-- AbstractElements::Equals: bidirectional containment of the non-empty
entries under identity of the whole triple. -/
def AbstractElements.Equals (E F : AbstractElements) : Bool :=
  (E.elements_.all fun e =>
    match e with
    | none => true
    | some el => F.elements_.contains (some el)) &&
  (F.elements_.all fun e =>
    match e with
    | none => true
    | some el => E.elements_.contains (some el))

/-- The facts the Merge copy loop inserts: for every non-empty entry of
the receiver, one insertion per identical entry of the argument. -/
def AbstractElements.mergeFacts (E F : AbstractElements) : List Element :=
  E.elements_.foldl
    (fun acc e =>
      match e with
      | none => acc
      | some el =>
        F.elements_.foldl (fun acc2 e2 => if e2 = some el then acc2 ++ [el] else acc2) acc)
    []

/-- AbstractElements::Merge. -/
def AbstractElements.Merge (E F : AbstractElements) : AbstractElements :=
  if E.Equals F then E
  else AbstractElements.ofFacts (E.mergeFacts F)

/-- Modelled from the spec: AbstractElements::Extend lives in the header
(load-elimination.h), which is not part of src/.  Spec section 4.2: first
Kill(object, index), then insert the new fact at the cursor, advancing it
modulo the capacity. -/
def AbstractElements.Extend (E : AbstractElements) (object index value : Node) :
    AbstractElements :=
  let k := E.Kill object index
  ⟨k.elements_.set k.next_index_ (some ⟨object, index, value⟩),
    (k.next_index_ + 1) % kMaxTrackedElements⟩

/-- One field slot: object-to-value pairs (the ZoneMap of the source,
modelled as an association list scanned linearly as spec section 4.3
describes). -/
structure AbstractField where
  info_for_node_ : List (Node × Node)
deriving DecidableEq

/-- AbstractField::Lookup: the first pair whose key must-aliases. -/
def AbstractField.Lookup (F : AbstractField) (object : Node) : Option Node :=
  F.info_for_node_.findSome? fun p =>
    if MustAlias object p.1 then some p.2 else none

/-- AbstractField::Kill: identity-preserving when no key may-aliases,
otherwise a copy retaining the non-aliasing pairs. -/
def AbstractField.Kill (F : AbstractField) (object : Node) : AbstractField :=
  if F.info_for_node_.any (fun p => MayAlias object p.1) then
    ⟨F.info_for_node_.filter fun p => !MayAlias object p.1⟩
  else F

/-- Modelled from the spec: AbstractField::Equals lives in the header,
not in src/.  Spec section 4.3: equality on (object, value) pairs by node
identity, i.e. the two pair sets contain each other. -/
def AbstractField.Equals (F G : AbstractField) : Bool :=
  (F.info_for_node_.all fun p => G.info_for_node_.contains p) &&
  (G.info_for_node_.all fun p => F.info_for_node_.contains p)

/-- Modelled from the spec: AbstractField::Merge lives in the header, not
in src/.  Spec section 4.3: pointwise intersection of the (object, value)
pairs by node identity. -/
def AbstractField.Merge (F G : AbstractField) : AbstractField :=
  ⟨F.info_for_node_.filter fun p => G.info_for_node_.contains p⟩

/-- Modelled from the spec: AbstractField::Extend lives in the header,
not in src/.  Spec section 4.3: a new field with the additional pair,
prior entries for the aliasing keys being replaced via a prior Kill. -/
def AbstractField.Extend (F : AbstractField) (object value : Node) : AbstractField :=
  ⟨(object, value) :: (F.Kill object).info_for_node_⟩

/-- Modelled from the spec: the AbstractField(object, value) constructor
lives in the header, not in src/; a field holding the one pair. -/
def AbstractField.single (object value : Node) : AbstractField :=
  ⟨[(object, value)]⟩

/-- AbstractState: optional elements ring plus one optional AbstractField
per tracked slot. -/
structure AbstractState where
  elements_ : Option AbstractElements
  fields_ : Fin kMaxTrackedFields → Option AbstractField

instance : DecidableEq AbstractState := fun s t =>
  decidable_of_iff (s.elements_ = t.elements_ ∧ s.fields_ = t.fields_)
    (by cases s; cases t; simp)

/-- LoadElimination::empty_state(). -/
def emptyState : AbstractState := ⟨none, fun _ => none⟩

/-- AbstractState::Equals. -/
def AbstractState.Equals (s t : AbstractState) : Bool :=
  (match s.elements_, t.elements_ with
   | some E, some F => F.Equals E
   | none, none => true
   | _, _ => false) &&
  ((List.finRange kMaxTrackedFields).all fun i =>
    match s.fields_ i, t.fields_ i with
    | some f, some g => g.Equals f
    | none, none => true
    | _, _ => false)

/-- AbstractState::Merge (the source mutates the receiver in place; the
model returns the updated receiver).  Note the receiver asymmetry of the
source: the merged elements are that->elements_->Merge(this->elements_),
the merged field is this->fields_[i]->Merge(that->fields_[i]). -/
def AbstractState.Merge (s t : AbstractState) : AbstractState :=
  { elements_ :=
      match s.elements_ with
      | none => none
      | some E =>
        match t.elements_ with
        | some F => some (F.Merge E)
        | none => none
    fields_ := fun i =>
      match s.fields_ i with
      | none => none
      | some f =>
        match t.fields_ i with
        | some g => some (f.Merge g)
        | none => none }

/-- AbstractState::LookupElement. -/
def AbstractState.LookupElement (s : AbstractState) (object index : Node) : Option Node :=
  match s.elements_ with
  | some E => E.Lookup object index
  | none => none

/-- AbstractState::AddElement. -/
def AbstractState.AddElement (s : AbstractState) (object index value : Node) :
    AbstractState :=
  let newE : AbstractElements :=
    match s.elements_ with
    | some E => E.Extend object index value
    | none => AbstractElements.single object index value
  { s with elements_ := some newE }

/-- AbstractState::KillElement.  The source copies the state only when
Kill produced a different ring. -/
def AbstractState.KillElement (s : AbstractState) (object index : Node) : AbstractState :=
  match s.elements_ with
  | none => s
  | some E =>
    let E2 := E.Kill object index
    if E2 = E then s else { s with elements_ := some E2 }

/-- AbstractState::AddField. -/
def AbstractState.AddField (s : AbstractState) (object : Node)
    (index : Fin kMaxTrackedFields) (value : Node) : AbstractState :=
  let newF : AbstractField :=
    match s.fields_ index with
    | some f => f.Extend object value
    | none => AbstractField.single object value
  { s with fields_ := Function.update s.fields_ index (some newF) }

/-- AbstractState::KillField.  The source copies the state only when Kill
produced a different field. -/
def AbstractState.KillField (s : AbstractState) (object : Node)
    (index : Fin kMaxTrackedFields) : AbstractState :=
  match s.fields_ index with
  | none => s
  | some f =>
    let f2 := f.Kill object
    if f2 = f then s else { s with fields_ := Function.update s.fields_ index (some f2) }

/-- AbstractState::LookupField. -/
def AbstractState.LookupField (s : AbstractState) (object : Node)
    (index : Fin kMaxTrackedFields) : Option Node :=
  match s.fields_ index with
  | some f => f.Lookup object
  | none => none

/-- LoadElimination::FieldIndexOf.  The outer none models the
UNREACHABLE() on kNone and kBit; the inner none is the untracked result
(-1 in the source).  The DCHECKs on tagged base and pointer alignment are
release no-ops; offset / kPointerSize is the slot, untracked from
kMaxTrackedFields on. -/
def FieldIndexOf (access : FieldAccess) : Option (Option (Fin kMaxTrackedFields)) :=
  let rep := access.machineRep
  let tracked : Option (Option (Fin kMaxTrackedFields)) :=
    let fieldIndex := access.offset / kPointerSize
    if h : fieldIndex < kMaxTrackedFields then some (some ⟨fieldIndex, h⟩)
    else some none
  match rep with
  | .kNone => none
  | .kBit => none
  | .kWord32 => if rep = pointerRepresentation then tracked else some none
  | .kWord64 => if rep = pointerRepresentation then tracked else some none
  | .kWord8 => some none
  | .kWord16 => some none
  | .kFloat32 => some none
  | .kFloat64 => some none
  | .kSimd128 => some none
  | .kTaggedSigned => tracked
  | .kTaggedPointer => tracked
  | .kTagged => tracked

/-- The outcome of one handler: NoChange, Replace(value) (possibly after
ReplaceWithValue on the graph, which is outside the model), or the final
UpdateState(node, state) call.  The UpdateState comparison against the
previously recorded state is the driver's business; claims about the
handlers are stated on this result. -/
inductive HandlerResult where
  | noChange
  | replaceNode (value : Node)
  | update (state : AbstractState)
deriving DecidableEq

/-- LoadElimination::ReduceStoreField.  The state table node_states_ is
passed as the lookup function sigma; none models the crashes on missing
inputs, which the source asserts on. -/
def ReduceStoreField (node : Node) (sigma : Node → Option AbstractState) :
    Option HandlerResult :=
  match node.getValueInput 0, node.getValueInput 1, node.getEffectInput 0 with
  | some object, some newValue, some effect =>
    match sigma effect with
    | none => some .noChange
    | some state =>
      match FieldIndexOf node.op.fieldAccess with
      | none => none
      | some none => some (.update emptyState)
      | some (some fieldIndex) =>
        if state.LookupField object fieldIndex = some newValue then
          some (.replaceNode effect)
        else
          some (.update ((state.KillField object fieldIndex).AddField object fieldIndex
            newValue))
  | _, _, _ => none

/-- LoadElimination::ReduceStoreElement. -/
def ReduceStoreElement (node : Node) (sigma : Node → Option AbstractState) :
    Option HandlerResult :=
  match node.getValueInput 0, node.getValueInput 1, node.getValueInput 2,
      node.getEffectInput 0 with
  | some object, some index, some newValue, some effect =>
    match sigma effect with
    | none => some .noChange
    | some state =>
      if state.LookupElement object index = some newValue then
        some (.replaceNode effect)
      else
        let killed := state.KillElement object index
        match node.op.elementAccess.machineRep with
        | .kNone => none
        | .kBit => none
        | .kWord8 => some (.update killed)
        | .kWord16 => some (.update killed)
        | .kWord32 => some (.update killed)
        | .kWord64 => some (.update killed)
        | .kFloat32 => some (.update killed)
        | .kFloat64 => some (.update (killed.AddElement object index newValue))
        | .kSimd128 => some (.update (killed.AddElement object index newValue))
        | .kTaggedSigned => some (.update (killed.AddElement object index newValue))
        | .kTaggedPointer => some (.update (killed.AddElement object index newValue))
        | .kTagged => some (.update (killed.AddElement object index newValue))
  | _, _, _, _ => none

/-- LoadElimination::ReduceOtherNode.  The arity DCHECKs after the outer
if are release no-ops; with any arity other than one effect input and one
effect output the handler returns NoChange without recording a state. -/
def ReduceOtherNode (node : Node) (sigma : Node → Option AbstractState) :
    Option HandlerResult :=
  if node.op.effectInputCount = 1 then
    if node.op.effectOutputCount = 1 then
      match node.getEffectInput 0 with
      | none => none
      | some effect =>
        match sigma effect with
        | none => some .noChange
        | some state =>
          some (.update (if node.op.noWrite then state else emptyState))
    else some .noChange
  else some .noChange

/-- The per-node processing of the ComputeLoopState walk, for a node that
was just taken off the queue and found unvisited. -/
inductive LoopStepResult where
  | crash
  | bail
  | cont (state : AbstractState)

/-- One switch dispatch of the ComputeLoopState body: nodes marked
kNoWrite are skipped; writing nodes kill the facts they may invalidate;
an untracked StoreField or an unknown writing opcode bails out to
empty_state. -/
def loopStateStep (current : Node) (state : AbstractState) : LoopStepResult :=
  if current.op.noWrite then .cont state
  else
    match current.opcode with
    | .kEnsureWritableFastElements =>
      match current.getValueInput 0 with
      | some object => .cont (state.KillField object 2)
      | none => .crash
    | .kMaybeGrowFastElements =>
      match current.getValueInput 0 with
      | some object =>
        let flags := current.op.growFlags
        let s1 := state.KillField object 2
        .cont (if flags.arrayObject then s1.KillField object 3 else s1)
      | none => .crash
    | .kTransitionElementsKind =>
      match current.getValueInput 0 with
      | some object => .cont ((state.KillField object 0).KillField object 2)
      | none => .crash
    | .kStoreField =>
      match current.getValueInput 0 with
      | some object =>
        match FieldIndexOf current.op.fieldAccess with
        | none => .crash
        | some none => .bail
        | some (some fieldIndex) => .cont (state.KillField object fieldIndex)
      | none => .crash
    | .kStoreElement =>
      match current.getValueInput 0, current.getValueInput 1 with
      | some object, some index => .cont (state.KillElement object index)
      | _, _ => .crash
    | .kStoreBuffer => .cont state
    | .kStoreTypedElement => .cont state
    | _ => .bail

/-- Total size of a queue, the termination measure of the walk. -/
def queueSz (q : List Node) : Nat := Node.szList q

/-- The worklist of ComputeLoopState: pop from the front, skip visited
nodes, process unvisited ones and push their effect inputs at the back.
A bail returns empty_state for the whole walk, just as the early returns
of the source do. -/
def computeLoopStateAux : List Node → List Node → AbstractState → Option AbstractState
  | [], _, state => some state
  | current :: queue, visited, state =>
    if current ∈ visited then computeLoopStateAux queue visited state
    else
      match loopStateStep current state with
      | .crash => none
      | .bail => some emptyState
      | .cont s2 =>
        computeLoopStateAux (queue ++ current.pushedEffectInputs) (current :: visited) s2
termination_by q _ _ => queueSz q
decreasing_by
  · simp only [queueSz, Node.szList]
    have := Node.sz_pos current
    omega
  · simp only [queueSz, Node.szList]
    rw [Node.szList_append]
    have := Node.szList_pushed_lt current
    omega

/-- LoadElimination::ComputeLoopState: seed the queue with the loop phi's
inputs 1 .. control->InputCount()-1 (the non-entry effect inputs), mark
the phi itself visited, and run the walk on the entry state. -/
def loopSeedQueue (node control : Node) : List Node :=
  ((List.range control.inputCount).drop 1).filterMap node.inputAt

def ComputeLoopState (node : Node) (state : AbstractState) : Option AbstractState :=
  match node.getControlInput with
  | none => none
  | some control =>
    computeLoopStateAux (loopSeedQueue node control) [node] state

/-- Backward reachability along the enqueued effect inputs, avoiding the
visited list: the nodes of the loop body that the ComputeLoopState walk
can still process. -/
inductive AvoidReach (v : List Node) : Node → Node → Prop
  | refl (n : Node) : n ∉ v → AvoidReach v n n
  | step (n m t : Node) : n ∉ v → m ∈ n.pushedEffectInputs → AvoidReach v m t →
      AvoidReach v n t

/-- The structural invariants of a ring as maintained by the constructors
and operations: full capacity allocated and no duplicate facts. -/
def ringWF (E : AbstractElements) : Prop :=
  E.elements_.length = kMaxTrackedElements ∧ (E.elements_.filterMap id).Nodup

instance (E : AbstractElements) : Decidable (ringWF E) :=
  inferInstanceAs (Decidable (_ ∧ _))

/-- Ring well-formedness of the optional elements component of a state. -/
def ringWFOpt : Option AbstractElements → Prop
  | none => True
  | some E => ringWF E

instance : (o : Option AbstractElements) → Decidable (ringWFOpt o)
  | none => .isTrue trivial
  | some E => inferInstanceAs (Decidable (ringWF E))

/-- The pair list of one slot of a state (empty when the slot is absent). -/
def AbstractState.fieldPairs (s : AbstractState) (k : Fin kMaxTrackedFields) :
    List (Node × Node) :=
  match s.fields_ k with
  | some f => f.info_for_node_
  | none => []

/-- Concrete nodes and states used by the witnesses and counterexamples. -/
def opPure : OpInfo :=
  ⟨true, 1, 1, 1, ⟨true, 0, .kTagged⟩, ⟨.kTagged⟩, ⟨false, false⟩, .kFastTransition⟩

def opDflt : OpInfo :=
  ⟨false, 1, 1, 1, ⟨true, 0, .kTagged⟩, ⟨.kTagged⟩, ⟨false, false⟩, .kFastTransition⟩

def opStoreTagged : OpInfo := { opDflt with fieldAccess := ⟨true, 40, .kTagged⟩ }

def opStoreWord8 : OpInfo := { opDflt with fieldAccess := ⟨true, 40, .kWord8⟩ }

def opStoreElemSimd : OpInfo := { opDflt with elementAccess := ⟨.kSimd128⟩ }

def opZeroEffects : OpInfo :=
  { opDflt with effectInputCount := 0, effectOutputCount := 0 }

def exAlloc : Node := .mk 1 .kAllocate [0] [] [] [] opDflt

def exHeap : Node := .mk 2 .kHeapConstant [0] [] [] [] opDflt

def exFin : Node := .mk 3 .kFinishRegion [0] [exAlloc] [] [] opDflt

def exO1 : Node := .mk 10 .kParameter [1] [] [] [] opPure

def exO2 : Node := .mk 11 .kParameter [2] [] [] [] opPure

def exV1 : Node := .mk 12 .kParameter [1] [] [] [] opPure

def exV2 : Node := .mk 13 .kParameter [3] [] [] [] opPure

def exIdx : Node := .mk 14 .kParameter [1] [] [] [] opPure

def exEffect : Node := .mk 20 (.kOther 0) [0] [] [] [] opDflt

def exS1 : AbstractState := (emptyState.KillField exO1 5).AddField exO1 5 exV1

def exSt1 : Node := .mk 21 .kStoreField [0] [exO1, exV1] [exEffect] [] opStoreTagged

def exSt2 : Node := .mk 22 .kStoreField [0] [exO1, exV1] [exSt1] [] opStoreTagged

def exSigma7 : Node → Option AbstractState := fun n =>
  if n = exSt1 then some exS1 else if n = exEffect then some emptyState else none

def exSt1u : Node := .mk 23 .kStoreField [0] [exO1, exV1] [exEffect] [] opStoreWord8

def exSt2u : Node := .mk 24 .kStoreField [0] [exO1, exV1] [exSt1u] [] opStoreWord8

def exSigma7u : Node → Option AbstractState := fun n =>
  if n = exSt1u then some emptyState
  else if n = exEffect then some emptyState else none

def exSE : Node := .mk 30 .kStoreElement [0] [exO1, exIdx, exV1] [exEffect] [] opStoreElemSimd

def exSigma3 : Node → Option AbstractState := fun n =>
  if n = exEffect then some emptyState else none

def opStoreElemWord8 : OpInfo := { opDflt with elementAccess := ⟨.kWord8⟩ }

def exSEw8 : Node :=
  .mk 31 .kStoreElement [0] [exO1, exIdx, exV1] [exEffect] [] opStoreElemWord8

def exOtherNode : Node := .mk 50 (.kOther 2) [] [] [] [] opZeroEffects

def exStateA : AbstractState := (emptyState.AddElement exO1 exIdx exV1).AddField exO1 5 exV1

def exStateB : AbstractState :=
  ((emptyState.AddElement exO1 exIdx exV1).AddField exO1 5 exV2).AddField exO2 3 exV1

def exLoopC0 : Node := .mk 40 .kStart [] [] [] [] opPure

def exLoopC1 : Node := .mk 41 (.kOther 1) [] [] [] [] opPure

def exLoop : Node := .mk 42 .kLoop [] [] [] [exLoopC0, exLoopC1] opPure

def exE0 : Node := .mk 43 .kStart [] [] [] [] opPure

def exStore : Node := .mk 44 .kStoreField [0] [exO1, exV1] [] [] opStoreTagged

def exPhi : Node :=
  .mk 45 .kEffectPhi [] [] [exE0, exStore] [exLoop] { opDflt with effectInputCount := 2 }

def exEntry : AbstractState :=
  ((emptyState.AddField exO1 5 exV2).AddField exO2 3 exV1).AddElement exO2 exIdx exV2

def exRingC5 : AbstractElements := AbstractElements.single exO2 exIdx exV1

def exFieldC5 : AbstractField := AbstractField.single exO2 exV1

def exS6 : AbstractState := emptyState.AddField exO2 5 exV1

theorem MustAlias_of_QueryAlias_no {a b : Node} (h : QueryAlias a b = .kNoAlias) :
    MustAlias a b = false := by
  simp [MustAlias, h]

theorem MustAlias_false_symm {a b : Node} (h : MustAlias a b = false) :
    MustAlias b a = false := by
  rw [MustAlias_symm]; exact h

theorem AbstractField.kill_pairs_subset {F : AbstractField} {o : Node} {p : Node × Node}
    (h : p ∈ (F.Kill o).info_for_node_) : p ∈ F.info_for_node_ := by
  unfold AbstractField.Kill at h
  by_cases ha : F.info_for_node_.any (fun p => MayAlias o p.1) = true
  · rw [if_pos ha] at h
    exact (List.mem_filter.mp h).1
  · rw [if_neg ha] at h
    exact h

theorem AbstractField.kill_pairs_noalias (F : AbstractField) (o : Node) :
    ∀ p ∈ (F.Kill o).info_for_node_, MayAlias o p.1 = false := by
  intro p hp
  unfold AbstractField.Kill at hp
  by_cases ha : F.info_for_node_.any (fun p => MayAlias o p.1) = true
  · rw [if_pos ha] at hp
    have := (List.mem_filter.mp hp).2
    simpa using this
  · rw [if_neg ha] at hp
    by_cases hm : MayAlias o p.1 = true
    · exact absurd (List.any_eq_true.mpr ⟨p, hp, hm⟩) ha
    · simpa using hm

theorem AbstractField.kill_idem (F : AbstractField) (o : Node) :
    (F.Kill o).Kill o = F.Kill o := by
  unfold AbstractField.Kill
  rw [if_neg]
  intro ha
  obtain ⟨p, hp, hm⟩ := List.any_eq_true.mp ha
  have := AbstractField.kill_pairs_noalias F o p hp
  rw [this] at hm
  cases hm

theorem AbstractField.lookup_head {o v oq : Node} {rest : List (Node × Node)}
    (h : MustAlias oq o = true) :
    AbstractField.Lookup ⟨(o, v) :: rest⟩ oq = some v := by
  simp [AbstractField.Lookup, List.findSome?_cons, h]

theorem AbstractField.lookup_eq_none {F : AbstractField} {oq : Node}
    (h : ∀ p ∈ F.info_for_node_, MustAlias oq p.1 = false) :
    F.Lookup oq = none := by
  unfold AbstractField.Lookup
  rw [List.findSome?_eq_none_iff]
  intro p hp
  rw [h p hp]
  rfl

theorem AbstractState.addField_at (s : AbstractState) (o : Node)
    (k : Fin kMaxTrackedFields) (v : Node) :
    (s.AddField o k v).fields_ k =
      some (match s.fields_ k with
            | some f => f.Extend o v
            | none => AbstractField.single o v) := by
  unfold AbstractState.AddField
  simp [Function.update_same]

theorem AbstractState.addField_other (s : AbstractState) (o : Node)
    (k j : Fin kMaxTrackedFields) (v : Node) (h : j ≠ k) :
    (s.AddField o k v).fields_ j = s.fields_ j := by
  unfold AbstractState.AddField
  simp [Function.update_noteq h]

theorem lookupField_addField_must {s : AbstractState} {o oq : Node}
    {k : Fin kMaxTrackedFields} {v : Node} (h : MustAlias oq o = true) :
    (s.AddField o k v).LookupField oq k = some v := by
  unfold AbstractState.LookupField
  rw [AbstractState.addField_at]
  cases hf : s.fields_ k with
  | some f => exact AbstractField.lookup_head h
  | none => exact AbstractField.lookup_head h

/-- Claim C5: if no tracked fact may-aliases the killed key then the Kill
of the elements ring and of a field slot returns the same abstract value
(the source's identity-preserving return of this; value identity in the
model). -/
theorem claim_C5 (E : AbstractElements) (o i : Node) (F : AbstractField) :
    ((E.elements_.all fun e =>
        match e with
        | none => true
        | some el => !MayAlias o el.object) = true → E.Kill o i = E) ∧
    ((F.info_for_node_.all fun p => !MayAlias o p.1) = true → F.Kill o = F) := by
  constructor
  · intro hall
    unfold AbstractElements.Kill
    rw [if_neg]
    intro hany
    obtain ⟨e, he, hme⟩ := List.any_eq_true.mp hany
    have := List.all_eq_true.mp hall e he
    cases e with
    | none => cases hme
    | some el =>
      simp only [Bool.not_eq_true'] at this
      have hme2 : MayAlias o el.object = true := hme
      rw [this] at hme2
      cases hme2
  · intro hall
    unfold AbstractField.Kill
    rw [if_neg]
    intro hany
    obtain ⟨p, hp, hmp⟩ := List.any_eq_true.mp hany
    have := List.all_eq_true.mp hall p hp
    simp only [Bool.not_eq_true'] at this
    rw [this] at hmp
    cases hmp

/-- Witness for claim C5 at a concrete ring and field whose facts are
type-disjoint from the killed object. -/
theorem claim_C5_witness :
    ((exRingC5.elements_.all fun e =>
        match e with
        | none => true
        | some el => !MayAlias exO1 el.object) = true ∧
      (exFieldC5.info_for_node_.all fun p => !MayAlias exO1 p.1) = true) ∧
    exRingC5.Kill exO1 exIdx = exRingC5 ∧ exFieldC5.Kill exO1 = exFieldC5 :=
  ⟨⟨by decide, by decide⟩,
    (claim_C5 exRingC5 exO1 exIdx exFieldC5).1 (by decide),
    (claim_C5 exRingC5 exO1 exIdx exFieldC5).2 (by decide)⟩

/-- Claim C9: any node reaching the Other-node handler whose operator
does not have exactly one effect input and one effect output reduces to
NoChange, recording nothing. -/
theorem claim_C9 (node : Node) (sigma : Node → Option AbstractState)
    (h : ¬ (node.op.effectInputCount = 1 ∧ node.op.effectOutputCount = 1)) :
    ReduceOtherNode node sigma = some .noChange := by
  unfold ReduceOtherNode
  by_cases h1 : node.op.effectInputCount = 1
  · have h2 : ¬ node.op.effectOutputCount = 1 := fun hh => h ⟨h1, hh⟩
    rw [if_pos h1, if_neg h2]
  · rw [if_neg h1]

/-- Witness for claim C9 at a concrete operator with no effect inputs. -/
theorem claim_C9_witness :
    ¬ (exOtherNode.op.effectInputCount = 1 ∧ exOtherNode.op.effectOutputCount = 1) ∧
    ReduceOtherNode exOtherNode (fun _ => none) = some .noChange :=
  ⟨by decide, claim_C9 exOtherNode (fun _ => none) (by decide)⟩

/-- Counterexample to claim C4: stripping a FinishRegion wrapper is not
answer-preserving when the other operand is a HeapConstant — the oracle
answers may on the wrapper but no on the stripped Allocate. -/
theorem claim_C4_cex :
    exFin.opcode = .kFinishRegion ∧ exFin.input0 = some exAlloc ∧
    QueryAlias exFin exHeap = .kMayAlias ∧
    QueryAlias exAlloc exHeap = .kNoAlias := by decide

/-- Claim C4 as amended: the oracle strips a FinishRegion operand and
recurses exactly when the other operand is an Allocate (and the identity
and type-disjointness shortcuts did not fire); when the other operand is
not an Allocate, a FinishRegion operand is not stripped and the query
answers may. -/
theorem claim_C4_amended :
    (∀ a b a0 : Node, a.opcode = .kFinishRegion → b.opcode = .kAllocate →
       a.input0 = some a0 → a ≠ b → typeMaybe a.ty b.ty = true →
       QueryAlias a b = QueryAlias a0 b) ∧
    (∀ a b b0 : Node, b.opcode = .kFinishRegion → a.opcode = .kAllocate →
       b.input0 = some b0 → a ≠ b → typeMaybe a.ty b.ty = true →
       QueryAlias a b = QueryAlias a b0) ∧
    (∀ a b : Node, a.opcode = .kFinishRegion → ¬ b.opcode = .kAllocate →
       a ≠ b → typeMaybe a.ty b.ty = true → QueryAlias a b = .kMayAlias) := by
  refine ⟨?_, ?_, ?_⟩
  · intro a b a0 haF hbA h0 hab hty
    have hsz := Node.sz_input0 h0
    unfold QueryAlias
    simp only [queryAliasF]
    rw [if_neg hab, if_neg (by rw [hty]; intro h; cases h)]
    rw [if_pos hbA]
    rw [if_neg (fun hP => by
      rcases hP with h | h | h <;> rw [haF] at h <;> cases h)]
    rw [if_pos haF, h0]
    exact queryAliasF_fuel_irrel (a.sz + b.sz) (a0.sz + b.sz + 1) a0 b
      (by omega) (by omega)
  · intro a b b0 hbF haA h0 hab hty
    have hsz := Node.sz_input0 h0
    unfold QueryAlias
    simp only [queryAliasF]
    rw [if_neg hab, if_neg (by rw [hty]; intro h; cases h)]
    rw [if_neg (fun hA => by rw [hbF] at hA; cases hA)]
    rw [if_pos haA]
    rw [if_neg (fun hP => by rcases hP with h | h <;> rw [hbF] at h <;> cases h)]
    rw [if_pos hbF, h0]
    exact queryAliasF_fuel_irrel (a.sz + b.sz) (a.sz + b0.sz + 1) a b0
      (by omega) (by omega)
  · intro a b haF hbA hab hty
    have haA : ¬ a.opcode = .kAllocate := fun h => by rw [haF] at h; cases h
    unfold QueryAlias
    simp only [queryAliasF]
    rw [if_neg hab, if_neg (by rw [hty]; intro h; cases h)]
    rw [if_neg hbA, if_neg haA]

/-- Witness for the amended claim C4 at a concrete wrapped allocation
queried against the allocation itself. -/
theorem claim_C4_witness :
    (exFin.opcode = .kFinishRegion ∧ exAlloc.opcode = .kAllocate ∧
      exFin.input0 = some exAlloc ∧ exFin ≠ exAlloc ∧
      typeMaybe exFin.ty exAlloc.ty = true) ∧
    QueryAlias exFin exAlloc = QueryAlias exAlloc exAlloc :=
  ⟨⟨by decide, by decide, by decide, by decide, by decide⟩,
    claim_C4_amended.1 exFin exAlloc exAlloc (by decide) (by decide) (by decide)
      (by decide) (by decide)⟩

/-- Counterexample to claim C10: the oracle answers must for a
FinishRegion wrapper queried against the very Allocate it wraps, although
the two handles are not identical. -/
theorem claim_C10_cex : MustAlias exFin exAlloc = true ∧ exFin ≠ exAlloc := by decide

/-- Claim C10 as amended: a must answer implies the two nodes are
identical after stripping FinishRegion wrappers (identity itself being
the special case of an empty chain), and the lookups return a recorded
value only for queries whose object (and index) strip to the same node as
the recorded key. -/
theorem claim_C10_amended :
    (∀ a b : Node, QueryAlias a b = .kMustAlias →
       stripFinishRegion a = stripFinishRegion b) ∧
    (∀ (E : AbstractElements) (o i v : Node), E.Lookup o i = some v →
       ∃ el : Element, some el ∈ E.elements_ ∧ el.value = v ∧
         stripFinishRegion el.object = stripFinishRegion o ∧
         stripFinishRegion el.index = stripFinishRegion i) ∧
    (∀ (F : AbstractField) (o v : Node), F.Lookup o = some v →
       ∃ key : Node, (key, v) ∈ F.info_for_node_ ∧
         stripFinishRegion key = stripFinishRegion o) := by
  refine ⟨?_, ?_, ?_⟩
  · intro a b h
    exact queryAliasF_must_strip (a.sz + b.sz + 1) a b (by omega) h
  · intro E o i v h
    unfold AbstractElements.Lookup at h
    obtain ⟨e, he, hfe⟩ := List.exists_of_findSome?_eq_some h
    cases e with
    | none => cases hfe
    | some el =>
      have hfe2 : (if MustAlias o el.object && MustAlias i el.index
          then some el.value else none) = some v := hfe
      by_cases hc : (MustAlias o el.object && MustAlias i el.index) = true
      · rw [if_pos hc] at hfe2
        have hv : el.value = v := by injection hfe2
        obtain ⟨h1, h2⟩ := (Bool.and_eq_true _ _).mp hc
        exact ⟨el, he, hv, (MustAlias_strip h1).symm, (MustAlias_strip h2).symm⟩
      · rw [if_neg hc] at hfe2; cases hfe2
  · intro F o v h
    unfold AbstractField.Lookup at h
    obtain ⟨p, hp, hfp⟩ := List.exists_of_findSome?_eq_some h
    by_cases hc : MustAlias o p.1 = true
    · rw [if_pos hc] at hfp
      have hv : p.2 = v := by injection hfp
      refine ⟨p.1, ?_, (MustAlias_strip hc).symm⟩
      rw [← hv]
      exact hp
    · rw [if_neg hc] at hfp; cases hfp

/-- Witness for the amended claim C10 at the concrete wrapper pair. -/
theorem claim_C10_witness :
    QueryAlias exFin exAlloc = .kMustAlias ∧
    stripFinishRegion exFin = stripFinishRegion exAlloc :=
  ⟨by decide, claim_C10_amended.1 exFin exAlloc (by decide)⟩

/-- Counterexample to claim C6: when the entry state already holds a
slot-k fact for a no-aliasing object, the lookup after AddField returns
that prior value rather than none. -/
theorem claim_C6_cex :
    QueryAlias exO1 exO2 = .kNoAlias ∧
    ((emptyState.AddField exO2 5 exV1).AddField exO1 5 exV2).LookupField exO2 5 =
      some exV1 := by decide

/-- Claim C6 as amended: after AddField(o, k, v) the lookup for any
must-aliasing object returns v, and for a provably no-aliasing object it
returns none provided slot k of the prior state held no fact for a key
must-aliasing the queried object. -/
theorem claim_C6_amended (s : AbstractState) (o : Node) (k : Fin kMaxTrackedFields)
    (v oq : Node) :
    (MustAlias o oq = true → (s.AddField o k v).LookupField oq k = some v) ∧
    (QueryAlias o oq = .kNoAlias →
      (∀ p ∈ s.fieldPairs k, MustAlias oq p.1 = false) →
      (s.AddField o k v).LookupField oq k = none) := by
  constructor
  · intro hmust
    have hmust2 : MustAlias oq o = true := by rw [MustAlias_symm]; exact hmust
    exact lookupField_addField_must hmust2
  · intro hno hprior
    have hqno : QueryAlias oq o = .kNoAlias := by rw [QueryAlias_symm]; exact hno
    have hhead : MustAlias oq o = false := MustAlias_of_QueryAlias_no hqno
    unfold AbstractState.LookupField
    rw [AbstractState.addField_at]
    cases hf : s.fields_ k with
    | some f =>
      apply AbstractField.lookup_eq_none
      intro p hp
      rcases List.mem_cons.mp hp with hp1 | hp2
      · rw [hp1]; exact hhead
      · apply hprior
        unfold AbstractState.fieldPairs
        rw [hf]
        exact AbstractField.kill_pairs_subset hp2
    | none =>
      apply AbstractField.lookup_eq_none
      intro p hp
      rcases List.mem_cons.mp hp with hp1 | hp2
      · rw [hp1]; exact hhead
      · cases hp2

/-- Witness for the amended claim C6: both directions at concrete nodes
(the must direction on the object itself, the none direction on a
type-disjoint object against an empty prior slot). -/
theorem claim_C6_witness :
    (MustAlias exO1 exO1 = true ∧
      (exS6.AddField exO1 2 exV2).LookupField exO1 2 = some exV2) ∧
    (QueryAlias exO1 exO2 = .kNoAlias ∧
      (∀ p ∈ exS6.fieldPairs 2, MustAlias exO2 p.1 = false) ∧
      (exS6.AddField exO1 2 exV2).LookupField exO2 2 = none) :=
  ⟨⟨by decide, (claim_C6_amended exS6 exO1 2 exV2 exO1).1 (by decide)⟩,
    ⟨by decide, by decide,
      (claim_C6_amended exS6 exO1 2 exV2 exO2).2 (by decide) (by decide)⟩⟩

/-- Counterexample to claim C7: two consecutive identical StoreFields to
an untracked (Word8) field are not eliminated — the second store resets
to the empty state instead of being replaced by its effect input. -/
theorem claim_C7_cex :
    exSt1u.getValueInput 0 = some exO1 ∧ exSt1u.getValueInput 1 = some exV1 ∧
    exSt2u.getValueInput 0 = some exO1 ∧ exSt2u.getValueInput 1 = some exV1 ∧
    exSt2u.getEffectInput 0 = some exSt1u ∧ exSt2u.op = exSt1u.op ∧
    ReduceStoreField exSt1u exSigma7u = some (.update emptyState) ∧
    exSigma7u exSt1u = some emptyState ∧
    ReduceStoreField exSt2u exSigma7u = some (.update emptyState) ∧
    ∀ x : Node, some (HandlerResult.update emptyState) ≠ some (.replaceNode x) := by
  refine ⟨rfl, rfl, rfl, rfl, rfl, rfl, rfl, rfl, rfl, ?_⟩
  intro x h
  injection h with h2
  cases h2

theorem reduceStoreField_eq (node : Node) (sigma : Node → Option AbstractState)
    (object newValue effect : Node)
    (ho : node.getValueInput 0 = some object) (hv : node.getValueInput 1 = some newValue)
    (he : node.getEffectInput 0 = some effect) :
    ReduceStoreField node sigma =
      match sigma effect with
      | none => some .noChange
      | some state =>
        match FieldIndexOf node.op.fieldAccess with
        | none => none
        | some none => some (.update emptyState)
        | some (some fieldIndex) =>
          if state.LookupField object fieldIndex = some newValue then
            some (.replaceNode effect)
          else
            some (.update ((state.KillField object fieldIndex).AddField object fieldIndex
              newValue)) := by
  unfold ReduceStoreField
  rw [ho, hv, he]

theorem reduceStoreField_reduces (node : Node) (sigma : Node → Option AbstractState)
    (object newValue effect : Node) (state : AbstractState) (k : Fin kMaxTrackedFields)
    (ho : node.getValueInput 0 = some object) (hv : node.getValueInput 1 = some newValue)
    (he : node.getEffectInput 0 = some effect) (hst : sigma effect = some state)
    (hfi : FieldIndexOf node.op.fieldAccess = some (some k)) :
    ReduceStoreField node sigma =
      if state.LookupField object k = some newValue then some (.replaceNode effect)
      else some (.update ((state.KillField object k).AddField object k newValue)) := by
  rw [reduceStoreField_eq node sigma object newValue effect ho hv he, hst]
  show (match FieldIndexOf node.op.fieldAccess with
        | none => (none : Option HandlerResult)
        | some none => some (.update emptyState)
        | some (some fieldIndex) =>
          if state.LookupField object fieldIndex = some newValue then
            some (.replaceNode effect)
          else
            some (.update ((state.KillField object fieldIndex).AddField object fieldIndex
              newValue))) = _
  rw [hfi]

/-- Claim C7 as amended: for two consecutive StoreField nodes storing the
identical value to the same tracked field of the same object, where the
recorded predecessor state of the second store is the state the first
store's reduction produced, the second store reduces to Replace(effect). -/
theorem claim_C7_amended (st1 st2 e0 o v : Node) (k : Fin kMaxTrackedFields)
    (sigma : Node → Option AbstractState) (s1 : AbstractState)
    (h1o : st1.getValueInput 0 = some o) (h1v : st1.getValueInput 1 = some v)
    (h1e : st1.getEffectInput 0 = some e0)
    (h2o : st2.getValueInput 0 = some o) (h2v : st2.getValueInput 1 = some v)
    (h2e : st2.getEffectInput 0 = some st1)
    (hfi1 : FieldIndexOf st1.op.fieldAccess = some (some k))
    (hfi2 : FieldIndexOf st2.op.fieldAccess = some (some k))
    (hred1 : ReduceStoreField st1 sigma = some (.update s1))
    (hs1 : sigma st1 = some s1) :
    ReduceStoreField st2 sigma = some (.replaceNode st1) := by
  cases hse : sigma e0 with
  | none =>
    rw [reduceStoreField_eq st1 sigma o v e0 h1o h1v h1e, hse] at hred1
    have h2 : some HandlerResult.noChange = some (HandlerResult.update s1) := hred1
    injection h2 with h3
    cases h3
  | some s0 =>
    rw [reduceStoreField_reduces st1 sigma o v e0 s0 k h1o h1v h1e hse hfi1] at hred1
    by_cases hlk : s0.LookupField o k = some v
    · rw [if_pos hlk] at hred1
      injection hred1 with h3
      cases h3
    · rw [if_neg hlk] at hred1
      injection hred1 with h3
      injection h3 with h4
      rw [reduceStoreField_reduces st2 sigma o v st1 s1 k h2o h2v h2e hs1 hfi2]
      rw [if_pos (by rw [← h4]; exact lookupField_addField_must (MustAlias_self o))]

/-- Witness for the amended claim C7 at a concrete tracked (Tagged,
offset 40, slot 5) store pair. -/
theorem claim_C7_witness :
    ReduceStoreField exSt1 exSigma7 = some (.update exS1) ∧
    exSigma7 exSt1 = some exS1 ∧
    ReduceStoreField exSt2 exSigma7 = some (.replaceNode exSt1) :=
  ⟨rfl, rfl,
    claim_C7_amended exSt1 exSt2 exEffect exO1 exV1 5 exSigma7 exS1
      rfl rfl rfl rfl rfl rfl (by decide) (by decide) rfl rfl⟩

theorem reduceStoreElement_eq (node : Node) (sigma : Node → Option AbstractState)
    (object index newValue effect : Node)
    (ho : node.getValueInput 0 = some object) (hi : node.getValueInput 1 = some index)
    (hv : node.getValueInput 2 = some newValue) (he : node.getEffectInput 0 = some effect) :
    ReduceStoreElement node sigma =
      match sigma effect with
      | none => some .noChange
      | some state =>
        if state.LookupElement object index = some newValue then some (.replaceNode effect)
        else
          match node.op.elementAccess.machineRep with
          | .kNone => none
          | .kBit => none
          | .kWord8 => some (.update (state.KillElement object index))
          | .kWord16 => some (.update (state.KillElement object index))
          | .kWord32 => some (.update (state.KillElement object index))
          | .kWord64 => some (.update (state.KillElement object index))
          | .kFloat32 => some (.update (state.KillElement object index))
          | .kFloat64 =>
            some (.update ((state.KillElement object index).AddElement object index newValue))
          | .kSimd128 =>
            some (.update ((state.KillElement object index).AddElement object index newValue))
          | .kTaggedSigned =>
            some (.update ((state.KillElement object index).AddElement object index newValue))
          | .kTaggedPointer =>
            some (.update ((state.KillElement object index).AddElement object index newValue))
          | .kTagged =>
            some (.update ((state.KillElement object index).AddElement object index
              newValue)) := by
  unfold ReduceStoreElement
  rw [ho, hi, hv, he]

/-- Counterexample to claim C3: a StoreElement with the Simd128
representation — outside the claim's four listed representations — does
record the new element fact. -/
theorem claim_C3_cex :
    exSE.op.elementAccess.machineRep = .kSimd128 ∧
    ReduceStoreElement exSE exSigma3 =
      some (.update ((emptyState.KillElement exO1 exIdx).AddElement exO1 exIdx exV1)) ∧
    ((emptyState.KillElement exO1 exIdx).AddElement exO1 exIdx exV1).LookupElement
      exO1 exIdx = some exV1 :=
  ⟨rfl, rfl, by decide⟩

/-- Claim C3 as amended: a non-redundant StoreElement records the new
element fact exactly for the pointer-tagged representations, Float64 and
Simd128; for the narrower representations (Word8/16/32/64, Float32) it
only kills the fact. -/
theorem claim_C3_amended (node : Node) (sigma : Node → Option AbstractState)
    (object index newValue effect : Node) (state : AbstractState)
    (ho : node.getValueInput 0 = some object) (hi : node.getValueInput 1 = some index)
    (hv : node.getValueInput 2 = some newValue) (he : node.getEffectInput 0 = some effect)
    (hst : sigma effect = some state)
    (hnr : ¬ state.LookupElement object index = some newValue) :
    ((node.op.elementAccess.machineRep = .kFloat64 ∨
      node.op.elementAccess.machineRep = .kSimd128 ∨
      node.op.elementAccess.machineRep = .kTaggedSigned ∨
      node.op.elementAccess.machineRep = .kTaggedPointer ∨
      node.op.elementAccess.machineRep = .kTagged) →
      ReduceStoreElement node sigma =
        some (.update ((state.KillElement object index).AddElement object index
          newValue))) ∧
    ((node.op.elementAccess.machineRep = .kWord8 ∨
      node.op.elementAccess.machineRep = .kWord16 ∨
      node.op.elementAccess.machineRep = .kWord32 ∨
      node.op.elementAccess.machineRep = .kWord64 ∨
      node.op.elementAccess.machineRep = .kFloat32) →
      ReduceStoreElement node sigma = some (.update (state.KillElement object index))) := by
  have h1 := reduceStoreElement_eq node sigma object index newValue effect ho hi hv he
  rw [hst] at h1
  have h2 : ReduceStoreElement node sigma =
      (match node.op.elementAccess.machineRep with
       | .kNone => (none : Option HandlerResult)
       | .kBit => none
       | .kWord8 => some (.update (state.KillElement object index))
       | .kWord16 => some (.update (state.KillElement object index))
       | .kWord32 => some (.update (state.KillElement object index))
       | .kWord64 => some (.update (state.KillElement object index))
       | .kFloat32 => some (.update (state.KillElement object index))
       | .kFloat64 =>
         some (.update ((state.KillElement object index).AddElement object index newValue))
       | .kSimd128 =>
         some (.update ((state.KillElement object index).AddElement object index newValue))
       | .kTaggedSigned =>
         some (.update ((state.KillElement object index).AddElement object index newValue))
       | .kTaggedPointer =>
         some (.update ((state.KillElement object index).AddElement object index newValue))
       | .kTagged =>
         some (.update ((state.KillElement object index).AddElement object index
           newValue))) := by
    rw [h1]
    show (if state.LookupElement object index = some newValue then
        some (HandlerResult.replaceNode effect)
      else
        match node.op.elementAccess.machineRep with
        | .kNone => none
        | .kBit => none
        | .kWord8 => some (.update (state.KillElement object index))
        | .kWord16 => some (.update (state.KillElement object index))
        | .kWord32 => some (.update (state.KillElement object index))
        | .kWord64 => some (.update (state.KillElement object index))
        | .kFloat32 => some (.update (state.KillElement object index))
        | .kFloat64 =>
          some (.update ((state.KillElement object index).AddElement object index newValue))
        | .kSimd128 =>
          some (.update ((state.KillElement object index).AddElement object index newValue))
        | .kTaggedSigned =>
          some (.update ((state.KillElement object index).AddElement object index newValue))
        | .kTaggedPointer =>
          some (.update ((state.KillElement object index).AddElement object index newValue))
        | .kTagged =>
          some (.update ((state.KillElement object index).AddElement object index
            newValue))) = _
    rw [if_neg hnr]
  constructor
  · intro hrep
    rw [h2]
    rcases hrep with h | h | h | h | h <;> rw [h]
  · intro hrep
    rw [h2]
    rcases hrep with h | h | h | h | h <;> rw [h]

/-- Witness for the amended claim C3: the Simd128 store records and a
Word8 store of the same shape only kills. -/
theorem claim_C3_witness :
    ReduceStoreElement exSE exSigma3 =
      some (.update ((emptyState.KillElement exO1 exIdx).AddElement exO1 exIdx exV1)) ∧
    ReduceStoreElement exSEw8 exSigma3 =
      some (.update (emptyState.KillElement exO1 exIdx)) :=
  ⟨(claim_C3_amended exSE exSigma3 exO1 exIdx exV1 exEffect emptyState rfl rfl rfl rfl
      rfl (by decide)).1 (Or.inr (Or.inl rfl)),
    (claim_C3_amended exSEw8 exSigma3 exO1 exIdx exV1 exEffect emptyState rfl rfl rfl rfl
      rfl (by decide)).2 (Or.inl rfl)⟩

theorem set_append_len (l1 l2 : List (Option Element)) (b : Option Element) :
    (l1 ++ l2).set l1.length b = l1 ++ l2.set 0 b := by
  induction l1 with
  | nil => simp
  | cons x xs ih => simp [List.cons_append, ih]

theorem foldlWrite_gen :
    ∀ (facts : List Element) (front : List (Option Element)) (m : Nat),
      facts.length ≤ m →
      (facts.foldl (fun p el => (p.1.set p.2 (some el), p.2 + 1))
          (front ++ List.replicate m none, front.length)) =
        (front ++ facts.map some ++ List.replicate (m - facts.length) none,
          front.length + facts.length) := by
  intro facts
  induction facts with
  | nil => intro front m h; simp
  | cons f fs ih =>
    intro front m h
    cases m with
    | zero => simp at h
    | succ m2 =>
      simp only [List.foldl_cons]
      have h1 : (front ++ List.replicate (m2 + 1) (none : Option Element)).set
          front.length (some f) = (front ++ [some f]) ++ List.replicate m2 none := by
        rw [set_append_len]
        simp [List.replicate_succ, List.append_assoc]
      rw [h1]
      have h2 : front.length + 1 = (front ++ [some f]).length := by simp
      rw [h2]
      have h3 := ih (front ++ [some f]) m2 (by simp at h; omega)
      rw [h3, Prod.mk.injEq]
      constructor
      · simp [List.append_assoc, Nat.succ_sub_succ_eq_sub]
      · simp
        omega

theorem ofFacts_elements (facts : List Element) (h : facts.length ≤ kMaxTrackedElements) :
    (AbstractElements.ofFacts facts).elements_ =
      facts.map some ++ List.replicate (kMaxTrackedElements - facts.length) none := by
  unfold AbstractElements.ofFacts
  have hg := foldlWrite_gen facts [] kMaxTrackedElements h
  simp only [List.nil_append, List.length_nil] at hg
  rw [hg]

theorem mem_ofFacts {facts : List Element} (h : facts.length ≤ kMaxTrackedElements)
    (el : Element) :
    some el ∈ (AbstractElements.ofFacts facts).elements_ ↔ el ∈ facts := by
  rw [ofFacts_elements facts h]
  simp [List.mem_append, List.mem_replicate]

theorem innerMergeFold (el : Element) :
    ∀ (L : List (Option Element)) (acc : List Element),
      L.foldl (fun acc2 e2 => if e2 = some el then acc2 ++ [el] else acc2) acc =
        acc ++ List.replicate (L.count (some el)) el := by
  intro L
  induction L with
  | nil => intro acc; simp
  | cons x xs ih =>
    intro acc
    simp only [List.foldl_cons]
    by_cases hx : x = some el
    · rw [if_pos hx, ih, List.count_cons]
      simp only [hx, beq_self_eq_true, if_true]
      rw [List.append_assoc, List.singleton_append, ← List.replicate_succ]
    · rw [if_neg hx, ih, List.count_cons]
      simp [hx]

theorem mem_outerMergeFold (Fl : List (Option Element)) :
    ∀ (L : List (Option Element)) (acc : List Element) (x : Element),
      (x ∈ L.foldl
        (fun acc e =>
          match e with
          | none => acc
          | some el =>
            Fl.foldl (fun acc2 e2 => if e2 = some el then acc2 ++ [el] else acc2) acc)
        acc) ↔ x ∈ acc ∨ (some x ∈ L ∧ some x ∈ Fl) := by
  intro L
  induction L with
  | nil => intro acc x; simp
  | cons e es ih =>
    intro acc x
    simp only [List.foldl_cons]
    cases e with
    | none =>
      rw [ih]
      simp
    | some el2 =>
      have hred : (match some el2 with
          | none => acc
          | some el =>
            Fl.foldl (fun acc2 e2 => if e2 = some el then acc2 ++ [el] else acc2) acc) =
          Fl.foldl (fun acc2 e2 => if e2 = some el2 then acc2 ++ [el2] else acc2) acc := rfl
      rw [hred, ih, innerMergeFold]
      constructor
      · rintro (hx | h)
        · rcases List.mem_append.mp hx with h1 | h2
          · exact Or.inl h1
          · obtain ⟨hc, hxe⟩ := List.mem_replicate.mp h2
            subst hxe
            refine Or.inr ⟨List.mem_cons_self _ _, ?_⟩
            have hpos : 0 < Fl.count (some x) := Nat.pos_of_ne_zero hc
            exact List.count_pos_iff.mp hpos
        · exact Or.inr ⟨List.mem_cons_of_mem _ h.1, h.2⟩
      · rintro (hx | ⟨hL, hF⟩)
        · exact Or.inl (List.mem_append.mpr (Or.inl hx))
        · rcases List.mem_cons.mp hL with h1 | h2
          · have hxe : x = el2 := by injection h1
            subst hxe
            refine Or.inl (List.mem_append.mpr (Or.inr ?_))
            rw [List.mem_replicate]
            have hpos := List.count_pos_iff.mpr hF
            exact ⟨by omega, rfl⟩
          · exact Or.inr ⟨h2, hF⟩

theorem mem_mergeFacts (E F : AbstractElements) (x : Element) :
    x ∈ E.mergeFacts F ↔ some x ∈ E.elements_ ∧ some x ∈ F.elements_ := by
  unfold AbstractElements.mergeFacts
  rw [mem_outerMergeFold F.elements_ E.elements_ [] x]
  simp

theorem count_some_filterMap (Fl : List (Option Element)) (el : Element) :
    Fl.count (some el) = (Fl.filterMap id).count el := by
  induction Fl with
  | nil => rfl
  | cons x xs ih =>
    cases x with
    | none => simp [List.count_cons, ih]
    | some y =>
      simp only [List.count_cons, ih, List.filterMap_cons, id]
      by_cases hy : y = el
      · simp [hy]
      · simp [hy]

theorem length_outerMergeFold (Fl : List (Option Element))
    (hF : ∀ el : Element, Fl.count (some el) ≤ 1) :
    ∀ (L : List (Option Element)) (acc : List Element),
      (L.foldl
        (fun acc e =>
          match e with
          | none => acc
          | some el =>
            Fl.foldl (fun acc2 e2 => if e2 = some el then acc2 ++ [el] else acc2) acc)
        acc).length ≤ acc.length + (L.filterMap id).length := by
  intro L
  induction L with
  | nil => intro acc; simp
  | cons e es ih =>
    intro acc
    simp only [List.foldl_cons]
    cases e with
    | none =>
      have := ih acc
      simpa using this
    | some el2 =>
      have hred : (match some el2 with
          | none => acc
          | some el =>
            Fl.foldl (fun acc2 e2 => if e2 = some el then acc2 ++ [el] else acc2) acc) =
          Fl.foldl (fun acc2 e2 => if e2 = some el2 then acc2 ++ [el2] else acc2) acc := rfl
      rw [hred, innerMergeFold]
      have h1 := ih (acc ++ List.replicate (Fl.count (some el2)) el2)
      have h2 := hF el2
      simp only [List.length_append, List.length_replicate] at h1
      simp only [List.filterMap_cons, id, List.length_cons]
      omega

theorem length_mergeFacts_le (E F : AbstractElements)
    (hF : (F.elements_.filterMap id).Nodup) :
    (E.mergeFacts F).length ≤ (E.elements_.filterMap id).length := by
  unfold AbstractElements.mergeFacts
  have h1 := length_outerMergeFold F.elements_
    (fun el => by
      rw [count_some_filterMap]
      exact List.nodup_iff_count_le_one.mp hF el)
    E.elements_ []
  simpa using h1

theorem elementsEquals_iff (E F : AbstractElements) :
    E.Equals F = true ↔
      ((∀ el : Element, some el ∈ E.elements_ → some el ∈ F.elements_) ∧
       (∀ el : Element, some el ∈ F.elements_ → some el ∈ E.elements_)) := by
  unfold AbstractElements.Equals
  rw [Bool.and_eq_true]
  constructor
  · rintro ⟨h1, h2⟩
    constructor
    · intro el hel
      have h3 : F.elements_.contains (some el) = true := List.all_eq_true.mp h1 _ hel
      exact List.elem_iff.mp h3
    · intro el hel
      have h3 : E.elements_.contains (some el) = true := List.all_eq_true.mp h2 _ hel
      exact List.elem_iff.mp h3
  · rintro ⟨h1, h2⟩
    constructor
    · apply List.all_eq_true.mpr
      intro x hx
      cases x with
      | none => rfl
      | some el => exact List.elem_iff.mpr (h1 el hx)
    · apply List.all_eq_true.mpr
      intro x hx
      cases x with
      | none => rfl
      | some el => exact List.elem_iff.mpr (h2 el hx)

theorem elementsEquals_refl (E : AbstractElements) : E.Equals E = true :=
  (elementsEquals_iff E E).mpr ⟨fun _ h => h, fun _ h => h⟩

theorem elementsEquals_symm {E F : AbstractElements} (h : E.Equals F = true) :
    F.Equals E = true := by
  obtain ⟨h1, h2⟩ := (elementsEquals_iff E F).mp h
  exact (elementsEquals_iff F E).mpr ⟨h2, h1⟩

theorem elementsMerge_comm (E F : AbstractElements) (hE : ringWF E) (hF : ringWF F) :
    (E.Merge F).Equals (F.Merge E) = true := by
  by_cases heq : E.Equals F = true
  · have heq2 := elementsEquals_symm heq
    unfold AbstractElements.Merge
    rw [if_pos heq, if_pos heq2]
    exact heq
  · have heq2 : ¬ F.Equals E = true := fun h => heq (elementsEquals_symm h)
    unfold AbstractElements.Merge
    rw [if_neg heq, if_neg heq2]
    have hlE : (E.mergeFacts F).length ≤ kMaxTrackedElements :=
      le_trans (length_mergeFacts_le E F hF.2)
        (le_trans (List.length_filterMap_le _ _) (le_of_eq hE.1))
    have hlF : (F.mergeFacts E).length ≤ kMaxTrackedElements :=
      le_trans (length_mergeFacts_le F E hE.2)
        (le_trans (List.length_filterMap_le _ _) (le_of_eq hF.1))
    apply (elementsEquals_iff _ _).mpr
    constructor
    · intro el h
      rw [mem_ofFacts hlE] at h
      rw [mem_ofFacts hlF]
      have h2 := (mem_mergeFacts E F el).mp h
      exact (mem_mergeFacts F E el).mpr ⟨h2.2, h2.1⟩
    · intro el h
      rw [mem_ofFacts hlF] at h
      rw [mem_ofFacts hlE]
      have h2 := (mem_mergeFacts F E el).mp h
      exact (mem_mergeFacts E F el).mpr ⟨h2.2, h2.1⟩

theorem fieldEquals_iff (f g : AbstractField) :
    f.Equals g = true ↔
      ((∀ p ∈ f.info_for_node_, p ∈ g.info_for_node_) ∧
       (∀ p ∈ g.info_for_node_, p ∈ f.info_for_node_)) := by
  unfold AbstractField.Equals
  rw [Bool.and_eq_true]
  constructor
  · rintro ⟨h1, h2⟩
    exact ⟨fun p hp => List.elem_iff.mp (List.all_eq_true.mp h1 p hp),
      fun p hp => List.elem_iff.mp (List.all_eq_true.mp h2 p hp)⟩
  · rintro ⟨h1, h2⟩
    exact ⟨List.all_eq_true.mpr fun p hp => List.elem_iff.mpr (h1 p hp),
      List.all_eq_true.mpr fun p hp => List.elem_iff.mpr (h2 p hp)⟩

theorem fieldEquals_refl (f : AbstractField) : f.Equals f = true :=
  (fieldEquals_iff f f).mpr ⟨fun _ h => h, fun _ h => h⟩

theorem fieldMerge_comm (f g : AbstractField) : (f.Merge g).Equals (g.Merge f) = true := by
  apply (fieldEquals_iff _ _).mpr
  unfold AbstractField.Merge
  constructor
  · intro p hp
    obtain ⟨hpf, hpc⟩ := List.mem_filter.mp hp
    exact List.mem_filter.mpr ⟨List.elem_iff.mp hpc, List.elem_iff.mpr hpf⟩
  · intro p hp
    obtain ⟨hpg, hpc⟩ := List.mem_filter.mp hp
    exact List.mem_filter.mpr ⟨List.elem_iff.mp hpc, List.elem_iff.mpr hpg⟩

theorem fieldMerge_self (f : AbstractField) : f.Merge f = f := by
  unfold AbstractField.Merge
  cases f with
  | mk info =>
    simp only [AbstractField.mk.injEq]
    exact List.filter_eq_self.mpr fun p hp => List.elem_iff.mpr hp

theorem stateMerge_elements (A B : AbstractState) :
    (A.Merge B).elements_ =
      match A.elements_ with
      | none => none
      | some E =>
        match B.elements_ with
        | some F => some (F.Merge E)
        | none => none := rfl

theorem stateMerge_fields (A B : AbstractState) (i : Fin kMaxTrackedFields) :
    (A.Merge B).fields_ i =
      match A.fields_ i with
      | none => none
      | some f =>
        match B.fields_ i with
        | some g => some (f.Merge g)
        | none => none := rfl

theorem stateEquals_eq (s t : AbstractState) :
    s.Equals t =
      ((match s.elements_, t.elements_ with
        | some E, some F => F.Equals E
        | none, none => true
        | _, _ => false) &&
       ((List.finRange kMaxTrackedFields).all fun i =>
         match s.fields_ i, t.fields_ i with
         | some f, some g => g.Equals f
         | none, none => true
         | _, _ => false)) := rfl

/-- Claim C2: Merge on abstract states is commutative up to Equals and
idempotent, over the element ring and every field slot; the ring facts
must satisfy the structural invariants the constructors maintain (full
capacity and no duplicate facts), which bound the copy loop of
AbstractElements::Merge within the ring capacity. -/
theorem claim_C2 (A B : AbstractState)
    (hA : ringWFOpt A.elements_) (hB : ringWFOpt B.elements_) :
    (A.Merge B).Equals (B.Merge A) = true ∧ (A.Merge A).Equals A = true := by
  constructor
  · rw [stateEquals_eq, Bool.and_eq_true]
    constructor
    · rw [stateMerge_elements A B, stateMerge_elements B A]
      cases hAe : A.elements_ with
      | none =>
        cases hBe : B.elements_ with
        | none => rfl
        | some F => rfl
      | some E =>
        cases hBe : B.elements_ with
        | none => rfl
        | some F =>
          show (E.Merge F).Equals (F.Merge E) = true
          rw [hAe] at hA
          rw [hBe] at hB
          exact elementsMerge_comm E F hA hB
    · rw [List.all_eq_true]
      intro i _
      rw [stateMerge_fields A B i, stateMerge_fields B A i]
      cases hAf : A.fields_ i with
      | none =>
        cases hBf : B.fields_ i with
        | none => rfl
        | some g => rfl
      | some f =>
        cases hBf : B.fields_ i with
        | none => rfl
        | some g =>
          show (g.Merge f).Equals (f.Merge g) = true
          exact fieldMerge_comm g f
  · rw [stateEquals_eq, Bool.and_eq_true]
    constructor
    · rw [stateMerge_elements A A]
      cases hAe : A.elements_ with
      | none => rfl
      | some E =>
        show E.Equals (E.Merge E) = true
        have hme : E.Merge E = E := by
          unfold AbstractElements.Merge
          rw [if_pos (elementsEquals_refl E)]
        rw [hme]
        exact elementsEquals_refl E
    · rw [List.all_eq_true]
      intro i _
      rw [stateMerge_fields A A i]
      cases hAf : A.fields_ i with
      | none => rfl
      | some f =>
        show f.Equals (f.Merge f) = true
        rw [fieldMerge_self f]
        exact fieldEquals_refl f

/-- Witness for claim C2 at two concrete states with elements and fields. -/
theorem claim_C2_witness :
    (ringWFOpt exStateA.elements_ ∧ ringWFOpt exStateB.elements_) ∧
    (exStateA.Merge exStateB).Equals (exStateB.Merge exStateA) = true ∧
    (exStateA.Merge exStateA).Equals exStateA = true :=
  ⟨⟨by decide, by decide⟩,
    (claim_C2 exStateA exStateB (by decide) (by decide)).1,
    (claim_C2 exStateA exStateB (by decide) (by decide)).2⟩

theorem Node.sz_mem_pushed {n a : Node} (h : a ∈ n.pushedEffectInputs) : a.sz < n.sz :=
  Node.sz_mem_effectInputs (List.mem_of_mem_take h)

theorem AvoidReach.not_mem {v : List Node} {n t : Node} (h : AvoidReach v n t) : n ∉ v := by
  cases h with
  | refl _ h => exact h
  | step _ _ _ h _ _ => exact h

theorem AvoidReach.mono {c : Node} {v : List Node} {n t : Node}
    (h : AvoidReach (c :: v) n t) : AvoidReach v n t := by
  induction h with
  | refl n h => exact .refl n fun hm => h (List.mem_cons_of_mem _ hm)
  | step n m t h hm _ ih => exact .step n m t (fun hmem => h (List.mem_cons_of_mem _ hmem)) hm ih

theorem AvoidReach.cons_of_sz {c : Node} {v : List Node} {n t : Node}
    (h : AvoidReach v n t) : n.sz < c.sz → AvoidReach (c :: v) n t := by
  induction h with
  | refl n hn =>
    intro hs
    refine .refl n fun hm => ?_
    rcases List.mem_cons.mp hm with h1 | h2
    · rw [h1] at hs; omega
    · exact hn h2
  | step n m t hn hm hr ih =>
    intro hs
    refine .step n m t (fun hmem => ?_) hm (ih (lt_trans (Node.sz_mem_pushed hm) hs))
    rcases List.mem_cons.mp hmem with h1 | h2
    · rw [h1] at hs; omega
    · exact hn h2

theorem AvoidReach.through {c : Node} {v : List Node} {n t : Node} (hc : c ∉ v)
    (h : AvoidReach v n t) :
    AvoidReach (c :: v) n t ∨ (∃ m ∈ c.pushedEffectInputs, AvoidReach (c :: v) m t) ∨
      c = t := by
  induction h with
  | refl n hn =>
    by_cases hnc : n = c
    · exact Or.inr (Or.inr hnc.symm)
    · refine Or.inl (.refl n fun hm => ?_)
      rcases List.mem_cons.mp hm with h1 | h2
      · exact hnc h1
      · exact hn h2
  | step n m t hn hm hr ih =>
    by_cases hnc : n = c
    · subst hnc
      exact Or.inr (Or.inl ⟨m, hm, hr.cons_of_sz (Node.sz_mem_pushed hm)⟩)
    · rcases ih with h1 | h2 | h3
      · refine Or.inl (.step n m t (fun hmem => ?_) hm h1)
        rcases List.mem_cons.mp hmem with hx | hx
        · exact hnc hx
        · exact hn hx
      · exact Or.inr (Or.inl h2)
      · exact Or.inr (Or.inr h3)

theorem AvoidReach.inv {v : List Node} {n t : Node} (h : AvoidReach v n t) :
    t = n ∨ ∃ m ∈ n.pushedEffectInputs, AvoidReach v m t := by
  cases h with
  | refl _ _ => exact Or.inl rfl
  | step _ m _ _ hm hr => exact Or.inr ⟨m, hm, hr⟩

theorem killField_elements (s : AbstractState) (o : Node) (k : Fin kMaxTrackedFields) :
    (s.KillField o k).elements_ = s.elements_ := by
  unfold AbstractState.KillField
  cases s.fields_ k with
  | none => rfl
  | some f =>
    by_cases h : f.Kill o = f
    · simp [h]
    · simp [h]

theorem killField_fields_other (s : AbstractState) (o : Node) (k j : Fin kMaxTrackedFields)
    (h : j ≠ k) : (s.KillField o k).fields_ j = s.fields_ j := by
  unfold AbstractState.KillField
  cases s.fields_ k with
  | none => rfl
  | some f =>
    by_cases h2 : f.Kill o = f
    · simp [h2]
    · simp [h2, Function.update_noteq h]

theorem killField_fields_at (s : AbstractState) (o : Node) (k : Fin kMaxTrackedFields) :
    (s.KillField o k).fields_ k =
      match s.fields_ k with
      | none => none
      | some f => some (f.Kill o) := by
  unfold AbstractState.KillField
  cases hf : s.fields_ k with
  | none =>
    show s.fields_ k = none
    exact hf
  | some f =>
    by_cases h2 : f.Kill o = f
    · simp [h2, hf]
    · simp [h2, Function.update_same]

theorem killField_eq_of_none {s : AbstractState} {o : Node} {k : Fin kMaxTrackedFields}
    (h : s.fields_ k = none) : s.KillField o k = s := by
  unfold AbstractState.KillField
  rw [h]

theorem killField_eq_of_kill_self {s : AbstractState} {o : Node} {k : Fin kMaxTrackedFields}
    {f : AbstractField} (hf : s.fields_ k = some f) (hk : f.Kill o = f) :
    s.KillField o k = s := by
  unfold AbstractState.KillField
  rw [hf]
  show (if f.Kill o = f then s else _) = s
  rw [if_pos hk]

theorem killField_idem (s : AbstractState) (o : Node) (k : Fin kMaxTrackedFields) :
    (s.KillField o k).KillField o k = s.KillField o k := by
  cases hf2 : (s.KillField o k).fields_ k with
  | none => exact killField_eq_of_none hf2
  | some g =>
    have hat := killField_fields_at s o k
    cases hf : s.fields_ k with
    | none =>
      rw [hf] at hat
      rw [hat] at hf2
      cases hf2
    | some f =>
      rw [hf] at hat
      have hg : f.Kill o = g := by rw [hat] at hf2; injection hf2
      refine killField_eq_of_kill_self (f := g) ?_ ?_
      · rw [hat]
        show some (f.Kill o) = some g
        rw [hg]
      · rw [← hg]
        exact AbstractField.kill_idem f o

theorem killField_pairs_noalias (s : AbstractState) (o : Node) (k : Fin kMaxTrackedFields) :
    ∀ p ∈ (s.KillField o k).fieldPairs k, MayAlias o p.1 = false := by
  intro p hp
  unfold AbstractState.fieldPairs at hp
  have hat := killField_fields_at s o k
  cases hf : s.fields_ k with
  | none =>
    rw [hf] at hat
    rw [hat] at hp
    cases hp
  | some f =>
    rw [hf] at hat
    rw [hat] at hp
    have hp2 : p ∈ (f.Kill o).info_for_node_ := hp
    exact AbstractField.kill_pairs_noalias f o p hp2

theorem killField_pairs_keep (s : AbstractState) (o : Node) (k : Fin kMaxTrackedFields)
    {p : Node × Node} (hp : p ∈ s.fieldPairs k) (hna : MayAlias o p.1 = false) :
    p ∈ (s.KillField o k).fieldPairs k := by
  unfold AbstractState.fieldPairs at hp ⊢
  have hat := killField_fields_at s o k
  cases hf : s.fields_ k with
  | none =>
    rw [hf] at hp
    cases hp
  | some f =>
    rw [hf] at hat
    rw [hat]
    rw [hf] at hp
    have hp2 : p ∈ f.info_for_node_ := hp
    show p ∈ (f.Kill o).info_for_node_
    unfold AbstractField.Kill
    by_cases ha : (f.info_for_node_.any fun p => MayAlias o p.1) = true
    · rw [if_pos ha]
      exact List.mem_filter.mpr ⟨hp2, by rw [hna]; rfl⟩
    · rw [if_neg ha]
      exact hp2

theorem killField_lookup_none (s : AbstractState) (o : Node) (k : Fin kMaxTrackedFields) :
    (s.KillField o k).LookupField o k = none := by
  unfold AbstractState.LookupField
  cases hf2 : (s.KillField o k).fields_ k with
  | none => rfl
  | some g =>
    apply AbstractField.lookup_eq_none
    intro p hp
    have h1 : p ∈ (s.KillField o k).fieldPairs k := by
      unfold AbstractState.fieldPairs
      rw [hf2]
      exact hp
    exact mustAlias_false_of_mayAlias_false (killField_pairs_noalias s o k p h1)

theorem loopStateStep_noWrite (c : Node) (S : AbstractState) (h : c.op.noWrite = true) :
    loopStateStep c S = .cont S := by
  unfold loopStateStep
  rw [if_pos h]

theorem loopStateStep_store (st o : Node) (k : Fin kMaxTrackedFields) (S : AbstractState)
    (hop : st.opcode = .kStoreField) (hnw : st.op.noWrite = false)
    (hobj : st.getValueInput 0 = some o)
    (hfi : FieldIndexOf st.op.fieldAccess = some (some k)) :
    loopStateStep st S = .cont (S.KillField o k) := by
  unfold loopStateStep
  rw [if_neg (by rw [hnw]; simp), hop]
  show (match st.getValueInput 0 with
        | some object =>
          match FieldIndexOf st.op.fieldAccess with
          | none => LoopStepResult.crash
          | some none => .bail
          | some (some fieldIndex) => .cont (S.KillField object fieldIndex)
        | none => .crash) = _
  rw [hobj]
  show (match FieldIndexOf st.op.fieldAccess with
        | none => LoopStepResult.crash
        | some none => .bail
        | some (some fieldIndex) => .cont (S.KillField o fieldIndex)) = _
  rw [hfi]

theorem computeLoopStateAux_single_store
    (st o : Node) (k : Fin kMaxTrackedFields) (entry : AbstractState)
    (hop : st.opcode = .kStoreField) (hnw : st.op.noWrite = false)
    (hobj : st.getValueInput 0 = some o)
    (hfi : FieldIndexOf st.op.fieldAccess = some (some k)) :
    ∀ (q v : List Node) (S : AbstractState),
      (∀ n, (∃ m ∈ q, AvoidReach v m n) → n.op.noWrite = true ∨ n = st) →
      (S = entry.KillField o k ∨ (S = entry ∧ ∃ m ∈ q, AvoidReach v m st)) →
      computeLoopStateAux q v S = some (entry.KillField o k) := by
  intro q v S
  induction q, v, S using computeLoopStateAux.induct with
  | case1 v S =>
    intro _ hS
    rcases hS with h | ⟨_, m, hm, _⟩
    · simp only [computeLoopStateAux]
      rw [h]
    · exact absurd hm (List.not_mem_nil m)
  | case2 current queue visited S hmem ih =>
    intro hreach hS
    simp only [computeLoopStateAux]
    rw [if_pos hmem]
    apply ih
    · rintro n ⟨m, hm, hr⟩
      exact hreach n ⟨m, List.mem_cons_of_mem _ hm, hr⟩
    · rcases hS with h | ⟨h, m, hm, hr⟩
      · exact Or.inl h
      · refine Or.inr ⟨h, m, ?_, hr⟩
        rcases List.mem_cons.mp hm with h1 | h2
        · exact absurd (h1 ▸ hmem) hr.not_mem
        · exact h2
  | case3 current queue visited S hnmem hcrash =>
    intro hreach _
    exfalso
    have hcur := hreach current ⟨current, List.mem_cons_self _ _, .refl current hnmem⟩
    rcases hcur with h1 | h1
    · rw [loopStateStep_noWrite current S h1] at hcrash
      cases hcrash
    · rw [h1, loopStateStep_store st o k S hop hnw hobj hfi] at hcrash
      cases hcrash
  | case4 current queue visited S hnmem hbail =>
    intro hreach _
    exfalso
    have hcur := hreach current ⟨current, List.mem_cons_self _ _, .refl current hnmem⟩
    rcases hcur with h1 | h1
    · rw [loopStateStep_noWrite current S h1] at hbail
      cases hbail
    · rw [h1, loopStateStep_store st o k S hop hnw hobj hfi] at hbail
      cases hbail
  | case5 current queue visited S hnmem s2 hcont ih =>
    intro hreach hS
    simp only [computeLoopStateAux]
    rw [if_neg hnmem, hcont]
    have hcur := hreach current ⟨current, List.mem_cons_self _ _, .refl current hnmem⟩
    apply ih
    · rintro n ⟨m, hm, hr⟩
      apply hreach n
      rcases List.mem_append.mp hm with h1 | h2
      · exact ⟨m, List.mem_cons_of_mem _ h1, hr.mono⟩
      · exact ⟨current, List.mem_cons_self _ _, .step current m n hnmem h2 hr.mono⟩
    · rcases hcur with hnw2 | heq
      · -- a no-write node: the state is unchanged
        rw [loopStateStep_noWrite current S hnw2] at hcont
        have hs2 : S = s2 := by injection hcont
        subst hs2
        rcases hS with h1 | ⟨h1, m, hm, hr⟩
        · exact Or.inl h1
        · refine Or.inr ⟨h1, ?_⟩
          have hcs : current ≠ st := fun hx => by
            rw [hx, hnw] at hnw2
            cases hnw2
          rcases List.mem_cons.mp hm with hmc | hmq
          · subst hmc
            rcases AvoidReach.through hnmem hr with hd1 | ⟨m2, hm2, hr2⟩ | hd3
            · exact absurd (List.mem_cons_self _ _) hd1.not_mem
            · exact ⟨m2, List.mem_append.mpr (Or.inr hm2), hr2⟩
            · exact absurd hd3 hcs
          · rcases AvoidReach.through hnmem hr with hd1 | ⟨m2, hm2, hr2⟩ | hd3
            · exact ⟨m, List.mem_append.mpr (Or.inl hmq), hd1⟩
            · exact ⟨m2, List.mem_append.mpr (Or.inr hm2), hr2⟩
            · exact absurd hd3 hcs
      · -- the store itself: the slot is killed
        rw [heq, loopStateStep_store st o k S hop hnw hobj hfi] at hcont
        have hs2 : S.KillField o k = s2 := by injection hcont
        rcases hS with h1 | ⟨h1, _⟩
        · refine Or.inl ?_
          rw [← hs2, h1]
          exact killField_idem entry o k
        · refine Or.inl ?_
          rw [← hs2, h1]

/-- Claim C1: when the only writing node reachable backwards from the
loop phi's non-entry inputs is a StoreField to tracked slot k of object
o, ComputeLoopState returns the entry state with exactly slot k of o
killed: the elements ring and every other slot are untouched (the very
same values), the slot-k facts that may-alias o are gone (so the lookup
of o returns none) and every slot-k fact that does not may-alias o is
kept. -/
theorem claim_C1 (phi control st o : Node) (k : Fin kMaxTrackedFields)
    (entry : AbstractState)
    (hctl : phi.getControlInput = some control)
    (hreach : ∀ n, (∃ m ∈ loopSeedQueue phi control, AvoidReach [phi] m n) →
      n.op.noWrite = true ∨ n = st)
    (hst : ∃ m ∈ loopSeedQueue phi control, AvoidReach [phi] m st)
    (hop : st.opcode = .kStoreField) (hnw : st.op.noWrite = false)
    (hobj : st.getValueInput 0 = some o)
    (hfi : FieldIndexOf st.op.fieldAccess = some (some k)) :
    ComputeLoopState phi entry = some (entry.KillField o k) ∧
    (entry.KillField o k).elements_ = entry.elements_ ∧
    (∀ j : Fin kMaxTrackedFields, j ≠ k →
      (entry.KillField o k).fields_ j = entry.fields_ j) ∧
    (entry.KillField o k).LookupField o k = none ∧
    (∀ p ∈ (entry.KillField o k).fieldPairs k, MayAlias o p.1 = false) ∧
    (∀ p ∈ entry.fieldPairs k, MayAlias o p.1 = false →
      p ∈ (entry.KillField o k).fieldPairs k) := by
  refine ⟨?_, killField_elements entry o k,
    fun j hj => killField_fields_other entry o k j hj,
    killField_lookup_none entry o k, killField_pairs_noalias entry o k,
    fun p hp hna => killField_pairs_keep entry o k hp hna⟩
  unfold ComputeLoopState
  rw [hctl]
  show computeLoopStateAux (loopSeedQueue phi control) [phi] entry = _
  exact computeLoopStateAux_single_store st o k entry hop hnw hobj hfi
    (loopSeedQueue phi control) [phi] entry hreach (Or.inr ⟨rfl, hst⟩)

/-- Witness for claim C1: a loop phi whose single back-edge input is a
StoreField of slot 5 of a parameter, applied to an entry state that knows
slot 5 of that object, slot 3 of another object and one element fact. -/
theorem claim_C1_witness :
    (exPhi.getControlInput = some exLoop ∧ exStore.opcode = .kStoreField ∧
      exStore.op.noWrite = false ∧ exStore.getValueInput 0 = some exO1 ∧
      FieldIndexOf exStore.op.fieldAccess = some (some 5) ∧
      (∃ m ∈ loopSeedQueue exPhi exLoop, AvoidReach [exPhi] m exStore)) ∧
    ComputeLoopState exPhi exEntry = some (exEntry.KillField exO1 5) ∧
    (exEntry.KillField exO1 5).LookupField exO1 5 = none := by
  have hq : loopSeedQueue exPhi exLoop = [exStore] := by decide
  have hst : ∃ m ∈ loopSeedQueue exPhi exLoop, AvoidReach [exPhi] m exStore := by
    rw [hq]
    exact ⟨exStore, List.mem_cons_self _ _, .refl exStore (by decide)⟩
  have hreach : ∀ n, (∃ m ∈ loopSeedQueue exPhi exLoop, AvoidReach [exPhi] m n) →
      n.op.noWrite = true ∨ n = exStore := by
    rw [hq]
    rintro n ⟨m, hm, hr⟩
    have hm2 : m = exStore := by
      rcases List.mem_cons.mp hm with h1 | h2
      · exact h1
      · cases h2
    subst hm2
    rcases AvoidReach.inv hr with h1 | ⟨m2, hm2, _⟩
    · exact Or.inr h1
    · have hemp : exStore.pushedEffectInputs = [] := by decide
      rw [hemp] at hm2
      cases hm2
  have hmain := claim_C1 exPhi exLoop exStore exO1 5 exEntry rfl hreach hst rfl rfl rfl
    (by decide)
  exact ⟨⟨rfl, rfl, rfl, rfl, by decide, hst⟩, hmain.1, hmain.2.2.2.1⟩
